import Mathlib

/-!
# UTXO indexer — verification of the core services

Shallow embedding of the indexing engine of the `backend-engineer-test`
repository, and proofs about it.  The embedding follows the TypeScript
source:

* `src/services/block.service.ts` — `BlockService.processBlock` with its
  three validations (height, input/output conservation, block identity)
  and the apply phase, `RollbackService.rollbackToHeight` with its
  validation, unspend and delete phases;
* `src/repositories/utxo.repository.impl.ts` — the store operations
  (`insert`, `markAsSpent`, `getMaxBlockHeight`, `findByTxIdsAndVouts`,
  `findUTXOsByBlockHeight`, `unmarkAsSpent`, `deleteUTXOsByBlockHeight`),
  modelled over a list of UTXO rows; the `(txid, vout)` uniqueness of the
  schema's `utxos_txid_vout_unique` index makes a duplicate `insert` a
  store error;
* `src/errors.ts` — the error kinds with the HTTP status codes the
  services construct them with.

Modelling conventions: JavaScript numbers that the code treats as
integers (heights, vouts, values) are `Int`; strings are Lean `String`
(code points; the source's UTF-16 view differs only on astral-plane
characters, which no claim exercises); the `spent_at` / `created_at`
timestamps and the serial row id are wall-clock/sequence artifacts with
no role in any validated behaviour and are omitted from the row type.
SHA-256 is implemented executably over `Nat` (words reduced mod 2^32)
and checked against the standard test vectors below.
-/

set_option maxRecDepth 1000000

namespace UtxoIndexer

/-! ## SHA-256 (executable, words as `Nat` mod 2^32) -/

def w32 : Nat := 4294967296

def add32 (a b : Nat) : Nat := (a + b) % w32

def rotr (n x : Nat) : Nat :=
  ((x >>> n) ||| (x <<< (32 - n))) % w32

def shr (n x : Nat) : Nat := x >>> n

def bsig0 (x : Nat) : Nat := (rotr 2 x) ^^^ (rotr 13 x) ^^^ (rotr 22 x)

def bsig1 (x : Nat) : Nat := (rotr 6 x) ^^^ (rotr 11 x) ^^^ (rotr 25 x)

def ssig0 (x : Nat) : Nat := (rotr 7 x) ^^^ (rotr 18 x) ^^^ (shr 3 x)

def ssig1 (x : Nat) : Nat := (rotr 17 x) ^^^ (rotr 19 x) ^^^ (shr 10 x)

def ch (x y z : Nat) : Nat := (x &&& y) ^^^ ((x ^^^ (w32 - 1)) &&& z)

def maj (x y z : Nat) : Nat := (x &&& y) ^^^ (x &&& z) ^^^ (y &&& z)

def shaK : List Nat := [
  1116352408, 1899447441, 3049323471, 3921009573, 961987163, 1508970993,
  2453635748, 2870763221, 3624381080, 310598401, 607225278, 1426881987,
  1925078388, 2162078206, 2614888103, 3248222580, 3835390401, 4022224774,
  264347078, 604807628, 770255983, 1249150122, 1555081692, 1996064986,
  2554220882, 2821834349, 2952996808, 3210313671, 3336571891, 3584528711,
  113926993, 338241895, 666307205, 773529912, 1294757372, 1396182291,
  1695183700, 1986661051, 2177026350, 2456956037, 2730485921, 2820302411,
  3259730800, 3345764771, 3516065817, 3600352804, 4094571909, 275423344,
  430227734, 506948616, 659060556, 883997877, 958139571, 1322822218,
  1537002063, 1747873779, 1955562222, 2024104815, 2227730452, 2361852424,
  2428436474, 2756734187, 3204031479, 3329325298]

def shaInit : List Nat := [1779033703, 3144134277, 1013904242, 2773480762,
                           1359893119, 2600822924, 528734635, 1541459225]

/-- SHA-256 message padding: `0x80`, zeros to 56 mod 64, 8-byte big-endian bit length. -/
def padMsg (msg : List Nat) : List Nat :=
  let len := msg.length
  let bitLen := len * 8
  let zeros := (55 - len % 64 + 64) % 64
  let lenBytes := (List.range 8).map (fun i => (bitLen >>> ((7 - i) * 8)) % 256)
  msg ++ [0x80] ++ List.replicate zeros 0 ++ lenBytes

/-- Group bytes into big-endian 32-bit words. -/
def toWords : List Nat → List Nat
  | b0 :: b1 :: b2 :: b3 :: rest => (((b0 * 256 + b1) * 256 + b2) * 256 + b3) :: toWords rest
  | _ => []

/-- Message-schedule extension, accumulated in reverse; `n` words remain to produce. -/
def schedAux : Nat → List Nat → List Nat
  | 0, acc => acc
  | n + 1, acc =>
    let v := add32 (add32 (ssig1 (acc.getD 1 0)) (acc.getD 6 0))
                   (add32 (ssig0 (acc.getD 14 0)) (acc.getD 15 0))
    schedAux n (v :: acc)

def schedule (ws16 : List Nat) : List Nat :=
  (schedAux 48 ws16.reverse).reverse

def roundStep (k w : Nat) (st : List Nat) : List Nat :=
  match st with
  | [a, b, c, d, e, f, g, h] =>
    let t1 := add32 (add32 (add32 h (bsig1 e)) (add32 (ch e f g) k)) w
    let t2 := add32 (bsig0 a) (maj a b c)
    [add32 t1 t2, a, b, c, add32 d t1, e, f, g]
  | _ => st

def rounds : List (Nat × Nat) → List Nat → List Nat
  | [], st => st
  | (k, w) :: rest, st => rounds rest (roundStep k w st)

def compress (st : List Nat) (blockBytes : List Nat) : List Nat :=
  let ws := schedule (toWords blockBytes)
  let st' := rounds (shaK.zip ws) st
  (st.zip st').map (fun p => add32 p.1 p.2)

def chunksAux : Nat → List Nat → List (List Nat)
  | 0, _ => []
  | _, [] => []
  | fuel + 1, l => l.take 64 :: chunksAux fuel (l.drop 64)

def sha256words (msg : List Nat) : List Nat :=
  (chunksAux (padMsg msg).length (padMsg msg)).foldl compress shaInit

def hexDigit (n : Nat) : Char :=
  if n < 10 then Char.ofNat (48 + n) else Char.ofNat (87 + n)

/-- Lowercase hex rendering of one 32-bit word. -/
def wordHex (w : Nat) : List Char :=
  (List.range 8).map (fun i => hexDigit ((w >>> ((7 - i) * 4)) % 16))

def sha256hexBytes (msg : List Nat) : String :=
  String.mk ((sha256words msg).flatMap wordHex)

def utf8EncodeCharNat (c : Nat) : List Nat :=
  if c < 0x80 then [c]
  else if c < 0x800 then [0xC0 ||| (c >>> 6), 0x80 ||| (c &&& 0x3F)]
  else if c < 0x10000 then
    [0xE0 ||| (c >>> 12), 0x80 ||| ((c >>> 6) &&& 0x3F), 0x80 ||| (c &&& 0x3F)]
  else
    [0xF0 ||| (c >>> 18), 0x80 ||| ((c >>> 12) &&& 0x3F),
     0x80 ||| ((c >>> 6) &&& 0x3F), 0x80 ||| (c &&& 0x3F)]

def utf8Bytes (s : String) : List Nat := s.data.flatMap (fun c => utf8EncodeCharNat c.toNat)

/-- `createHash("sha256").update(input).digest("hex")` on a string: UTF-8
bytes in, 64 lowercase hex characters out. -/
def sha256hex (s : String) : String := sha256hexBytes (utf8Bytes s)

/-! ## Data model

Wire types from `src/types/block.types.ts`, row type from
`src/db/schema.ts` (timestamps and the serial id omitted, see header). -/

structure TxOutput where
  address : String
  value : Int
deriving DecidableEq, Repr

structure TxInput where
  txId : String
  index : Int
deriving DecidableEq, Repr

structure Transaction where
  id : String
  inputs : List TxInput
  outputs : List TxOutput
deriving DecidableEq, Repr

structure Block where
  id : String
  height : Int
  transactions : List Transaction
deriving DecidableEq, Repr

structure Utxo where
  txid : String
  vout : Int
  address : String
  value : Int
  scriptPubkey : String
  blockHeight : Int
  spent : Bool
  spentTxid : Option String
deriving DecidableEq, Repr

/-- The store: the rows of the `utxos` table, in insertion order. -/
abbrev Store := List Utxo

/-- Error kinds from `src/errors.ts`, with the payload fields the services
fill in (`currentHeight` / `height` / `targetHeight`); `none` models a
field the construction site leaves unset. -/
inductive AppError where
  | invalidBlockHeight (currentHeight height : Option Int)
  | invalidInputOutputSum
  | invalidBlockId
  | databaseError
  | utxoNotFound
  | invalidRollbackHeight (targetHeight : Int) (currentHeight : Option Int)
  | noBlocksToRollback (targetHeight currentHeight : Int)
deriving DecidableEq, Repr

/-- The `statusCode` each construction site passes (`400`/`404`/`500`),
which `getErrorStatusCode` in `src/errors.ts` reads back for HTTP. -/
def statusCode : AppError → Int
  | .invalidBlockHeight _ _ => 400
  | .invalidInputOutputSum => 400
  | .invalidBlockId => 400
  | .databaseError => 500
  | .utxoNotFound => 404
  | .invalidRollbackHeight _ _ => 400
  | .noBlocksToRollback _ _ => 400

instance {α β : Type} [DecidableEq α] [DecidableEq β] : DecidableEq (Except α β) :=
  fun a b =>
    match a, b with
    | .ok x, .ok y =>
      if h : x = y then isTrue (by rw [h]) else isFalse (by intro hc; cases hc; exact h rfl)
    | .error x, .error y =>
      if h : x = y then isTrue (by rw [h]) else isFalse (by intro hc; cases hc; exact h rfl)
    | .ok _, .error _ => isFalse (by intro hc; cases hc)
    | .error _, .ok _ => isFalse (by intro hc; cases hc)

/-! ## Repository (`src/repositories/utxo.repository.impl.ts`) -/

/-- `MAX(block_height)` with SQL `NULL` (empty table) read back as `0`. -/
def maxList : List Int → Int
  | [] => 0
  | h :: t => t.foldl max h

def getMaxBlockHeight (s : Store) : Int := maxList (s.map (·.blockHeight))

/-- `findByTxIdsAndVouts`: rows matching some requested `(txId, vout)` and
`spent = false`; empty request short-circuits to the empty answer. -/
def findByTxIdsAndVouts (refs : List TxInput) (s : Store) : List Utxo :=
  if refs.isEmpty then []
  else s.filter (fun u => refs.any (fun r => u.txid == r.txId && u.vout == r.index && u.spent == false))

/-- `insert`: the `utxos_txid_vout_unique` index makes a duplicate key a
store error; otherwise the row is appended. -/
def insertUtxo (u : Utxo) (s : Store) : Except AppError Store :=
  if s.any (fun v => v.txid == u.txid && v.vout == u.vout) then .error .databaseError
  else .ok (s ++ [u])

/-- Spend marking as a row update: `spent := true`, `spent_txid := spentTxid`. -/
def markUtxo (u : Utxo) (spentTxid : String) : Utxo :=
  { u with spent := true, spentTxid := some spentTxid }

/-- `markAsSpent`: select the `(txid, vout)` row; missing or already spent is
`UTXONotFound`; otherwise update it. -/
def markAsSpent (txId : String) (vout : Int) (spentTxid : String) (s : Store) :
    Except AppError Store :=
  match s.find? (fun u => u.txid == txId && u.vout == vout) with
  | none => .error .utxoNotFound
  | some u =>
    if u.spent then .error .utxoNotFound
    else .ok (s.map (fun v => if v.txid == txId && v.vout == vout then markUtxo v spentTxid else v))

def findUTXOsByBlockHeight (minHeight : Int) (s : Store) : List Utxo :=
  s.filter (fun u => minHeight < u.blockHeight)

/-- The unspend update applied to one row. -/
def unmarkUtxo (u : Utxo) : Utxo := { u with spent := false, spentTxid := none }

/-- `unmarkAsSpent`: clear the spend mark on every row whose `spent_txid`
is one of the given ids; empty input is a no-op. -/
def unmarkAsSpent (txIds : List String) (s : Store) : Store :=
  if txIds.isEmpty then s
  else s.map (fun u => if u.spent && txIds.any (fun t => u.spentTxid == some t) then unmarkUtxo u else u)

def deleteUTXOsByBlockHeight (minHeight : Int) (s : Store) : Store :=
  s.filter (fun u => !(minHeight < u.blockHeight))

/-! ## BlockService (`src/services/block.service.ts`) -/

/-- `isCoinbaseInput`: the id matches `^0+$` — nonempty, only `'0'`. -/
def isCoinbaseInput (txId : String) : Bool :=
  !txId.isEmpty && txId.data.all (· == '0')

/-- `validateHeight` as written over the already-delivered repository
result: a failed `getMaxBlockHeight` read is mapped to an
`InvalidBlockHeightError` with no height fields; otherwise the height
must be exactly `max + 1`. -/
def validateHeightR (maxHeightResult : Except Unit Int) (height : Int) : Except AppError Unit :=
  match maxHeightResult with
  | .error _ => .error (.invalidBlockHeight none none)
  | .ok m =>
    if height ≠ m + 1 then .error (.invalidBlockHeight (some m) (some height))
    else .ok ()

/-- `validateHeight` with the pure store supplying the read. -/
def validateHeight (height : Int) (s : Store) : Except AppError Unit :=
  validateHeightR (.ok (getMaxBlockHeight s)) height

def txOutputSum (t : Transaction) : Int :=
  t.outputs.foldl (fun acc o => acc + o.value) 0

/-- `validateCoinbaseTransactions`: per transaction, mixing coinbase and
regular inputs fails; a coinbase transaction is exempt from any sum rule;
a transaction with no inputs must have output sum `0`. -/
def validateCoinbaseTransactions : List Transaction → Except AppError Unit
  | [] => .ok ()
  | t :: rest =>
    if t.inputs.any (fun i => isCoinbaseInput i.txId) && t.inputs.any (fun i => !isCoinbaseInput i.txId) then
      .error .invalidInputOutputSum
    else if t.inputs.any (fun i => isCoinbaseInput i.txId) then validateCoinbaseTransactions rest
    else if t.inputs.isEmpty && txOutputSum t ≠ 0 then .error .invalidInputOutputSum
    else validateCoinbaseTransactions rest

/-- The filter defining a regular transaction: no coinbase input and at
least one input. -/
def isRegularTx (t : Transaction) : Bool :=
  !t.inputs.any (fun i => isCoinbaseInput i.txId) && !t.inputs.isEmpty

/-- The `utxoMap` lookup.  The source keys a `Map` by the string
`txid + ":" + vout` and inserts by iterating the fetched rows, later rows
overwriting earlier ones; since the decimal rendering of `vout` contains
no `':'`, that key is injective in `(txid, vout)`, so the map lookup is
the last fetched row with these coordinates. -/
def utxoLookup (utxos : List Utxo) (txId : String) (index : Int) : Option Utxo :=
  utxos.foldl (fun acc u => if u.txid == txId && u.vout == index then some u else acc) none

/-- The input walk of one regular transaction: resolve each input in the
map, failing on the first miss, and sum the resolved values. -/
def txInputSum (utxos : List Utxo) : List TxInput → Except AppError Int
  | [] => .ok 0
  | i :: rest =>
    match utxoLookup utxos i.txId i.index with
    | none => .error .invalidInputOutputSum
    | some u => (txInputSum utxos rest).map (fun acc => u.value + acc)

/-- Per-transaction sum comparison over the fetched rows. -/
def validateRegularList (utxos : List Utxo) : List Transaction → Except AppError Unit
  | [] => .ok ()
  | t :: rest =>
    match txInputSum utxos t.inputs with
    | .error e => .error e
    | .ok inputSum =>
      if inputSum ≠ txOutputSum t then .error .invalidInputOutputSum
      else validateRegularList utxos rest

/-- `validateRegularTransactions` over the already-delivered batch query
result: a failed `findByTxIdsAndVouts` read is mapped to
`InvalidInputOutputSumError`. -/
def validateRegularTransactionsR (txs : List Transaction)
    (utxosResult : Except Unit (List Utxo)) : Except AppError Unit :=
  if (txs.filter isRegularTx).isEmpty then .ok ()
  else
    match utxosResult with
    | .error _ => .error .invalidInputOutputSum
    | .ok utxos => validateRegularList utxos (txs.filter isRegularTx)

/-- The refs the service collects for the batch query: every input of
every regular transaction. -/
def collectRefs (txs : List Transaction) : List TxInput :=
  (txs.filter isRegularTx).flatMap (fun t => t.inputs)

/-- `validateRegularTransactions` with the pure store supplying the query. -/
def validateRegularTransactions (txs : List Transaction) (s : Store) : Except AppError Unit :=
  validateRegularTransactionsR txs (.ok (findByTxIdsAndVouts (collectRefs txs) s))

/-- `validateInputOutputSum`: the coinbase/no-input phase, then the
regular-transaction phase. -/
def validateInputOutputSum (b : Block) (s : Store) : Except AppError Unit :=
  match validateCoinbaseTransactions b.transactions with
  | .error e => .error e
  | .ok _ => validateRegularTransactions b.transactions s

/-- `padTxId`: right-pad with `'0'` to 64 characters, truncating longer
ids to 64 (`padEnd(64, "0").substring(0, 64)`). -/
def padTxId (txId : String) : String :=
  String.mk ((txId.data ++ List.replicate (64 - txId.length) '0').take 64)

/-- The id `validateBlockId` recomputes:
`sha256hex(decimal(height) ++ concat(pad64(tx.id)))`. -/
def expectedBlockId (height : Int) (txs : List Transaction) : String :=
  sha256hex (toString height ++ String.join (txs.map (fun t => padTxId t.id)))

def validateBlockId (b : Block) : Except AppError Unit :=
  if b.id ≠ expectedBlockId b.height b.transactions then .error .invalidBlockId
  else .ok ()

/-- The spend-marking loop of the apply phase for one transaction:
coinbase inputs are skipped, every other input is marked spent with the
transaction's own id; the first store error aborts, leaving prior marks
in place (the source has no surrounding transaction). -/
def applyTxInputs (spender : String) : List TxInput → Store → Option AppError × Store
  | [], s => (none, s)
  | i :: rest, s =>
    if isCoinbaseInput i.txId then applyTxInputs spender rest s
    else
      match markAsSpent i.txId i.index spender s with
      | .error e => (some e, s)
      | .ok s' => applyTxInputs spender rest s'

/-- The insertion loop of the apply phase for one transaction: output `i`
becomes row `(tx.id, i)` at the block's height, unspent, empty
`scriptPubkey`. -/
def applyTxOutputs (txid : String) (height : Int) : List TxOutput → Int → Store →
    Option AppError × Store
  | [], _, s => (none, s)
  | o :: rest, idx, s =>
    match insertUtxo { txid := txid, vout := idx, address := o.address, value := o.value,
                       scriptPubkey := "", blockHeight := height, spent := false,
                       spentTxid := none } s with
    | .error e => (some e, s)
    | .ok s' => applyTxOutputs txid height rest (idx + 1) s'

/-- The apply phase: per transaction in order, mark its inputs spent, then
insert its outputs. -/
def applyTxs (height : Int) : List Transaction → Store → Option AppError × Store
  | [], s => (none, s)
  | t :: rest, s =>
    match applyTxInputs t.id t.inputs s with
    | (some e, s') => (some e, s')
    | (none, s') =>
      match applyTxOutputs t.id height t.outputs 0 s' with
      | (some e, s'') => (some e, s'')
      | (none, s'') => applyTxs height rest s''

/-- `processBlock`: height check, conservation check, block-identity
check, in that order, then the apply phase.  The returned store is the
store as the call leaves it (unchanged on any validation failure). -/
def processBlock (b : Block) (s : Store) : Option AppError × Store :=
  match validateHeight b.height s with
  | .error e => (some e, s)
  | .ok _ =>
    match validateInputOutputSum b s with
    | .error e => (some e, s)
    | .ok _ =>
      match validateBlockId b with
      | .error e => (some e, s)
      | .ok _ => applyTxs b.height b.transactions s

/-! ## RollbackService (`src/services/block.service.ts`, rollback part) -/

/-- `validateRollbackHeight` over the already-delivered repository result:
negative targets fail before the read; a failed read is mapped to an
`InvalidRollbackHeightError` with no current height; a target above the
max fails with both heights. -/
def validateRollbackHeightR (targetHeight : Int) (maxHeightResult : Except Unit Int) :
    Except AppError Unit :=
  if targetHeight < 0 then .error (.invalidRollbackHeight targetHeight none)
  else
    match maxHeightResult with
    | .error _ => .error (.invalidRollbackHeight targetHeight none)
    | .ok m =>
      if targetHeight > m then .error (.invalidRollbackHeight targetHeight (some m))
      else .ok ()

def validateRollbackHeight (targetHeight : Int) (s : Store) : Except AppError Unit :=
  validateRollbackHeightR targetHeight (.ok (getMaxBlockHeight s))

/-- First-occurrence deduplication — `new Set(...)` iterated in insertion
order by `Array.from`. -/
def dedupAux (seen : List String) : List String → List String
  | [] => []
  | x :: xs => if seen.contains x then dedupAux seen xs else x :: dedupAux (x :: seen) xs

def setDedup (l : List String) : List String := dedupAux [] l

/-- `rollbackToHeight`: validate the target, collect the rows above it;
none is `NoBlocksToRollback`; otherwise unspend everything their
(deduplicated) producing tx ids spent, then delete them. -/
def rollbackToHeight (targetHeight : Int) (s : Store) : Option AppError × Store :=
  match validateRollbackHeight targetHeight s with
  | .error e => (some e, s)
  | .ok _ =>
    if (findUTXOsByBlockHeight targetHeight s).isEmpty then
      (some (.noBlocksToRollback targetHeight (getMaxBlockHeight s)), s)
    else
      (none, deleteUTXOsByBlockHeight targetHeight
        (if (setDedup ((findUTXOsByBlockHeight targetHeight s).map (·.txid))).isEmpty then s
         else unmarkAsSpent (setDedup ((findUTXOsByBlockHeight targetHeight s).map (·.txid))) s))

/-! ## Chains of blocks -/

/-- Ingest blocks in order, stopping at the first rejection. -/
def ingestChain : List Block → Store → Option AppError × Store
  | [], s => (none, s)
  | b :: rest, s =>
    match processBlock b s with
    | (some e, s') => (some e, s')
    | (none, s') => ingestChain rest s'

/-- Stores reachable from the empty store by successful ingests and
successful rollbacks. -/
inductive Reachable : Store → Prop
  | empty : Reachable []
  | stepBlock (b : Block) (s s' : Store) : Reachable s → processBlock b s = (none, s') →
      Reachable s'
  | stepRollback (t : Int) (s s' : Store) : Reachable s → rollbackToHeight t s = (none, s') →
      Reachable s'

/-! ## Derived notions used by the statements -/

/-- The row key the schema's `utxos_txid_vout_unique` index constrains. -/
def rowKey (u : Utxo) : String × Int := (u.txid, u.vout)

/-- The store respects the unique index: no two rows share `(txid, vout)`. -/
def keysNodup (s : Store) : Prop := (s.map rowKey).Nodup

/-- Rows that are not spent carry no `spent_txid` (schema invariant 2). -/
def cleanUnspent (s : Store) : Prop :=
  ∀ u ∈ s, u.spent = false → u.spentTxid = none

/-- All spend-mark ids present in a store. -/
def stamps (s : Store) : List String := s.filterMap (·.spentTxid)

def blockTxIds (b : Block) : List String := b.transactions.map (·.id)

def txIdsOf (bs : List Block) : List String := bs.flatMap blockTxIds

/-- Modelled from the spec (§4.1 (b), the claim's words): look up the UTXO
by `(input.txId, input.index)` restricted to `spent = false`. -/
def resolveUnspent (s : Store) (i : TxInput) : Option Utxo :=
  s.find? (fun u => u.txid == i.txId && u.vout == i.index && u.spent == false)

/-- Modelled from the spec: `inputSum = Σ utxo.value` over the resolved
inputs, undefined as soon as one input fails to resolve. -/
def specInputSum (s : Store) : List TxInput → Option Int
  | [] => some 0
  | i :: rest =>
    match resolveUnspent s i, specInputSum s rest with
    | some u, some acc => some (u.value + acc)
    | _, _ => none

/-- Modelled from the spec: the ways one transaction can break the
conservation check — mixed coinbase/regular inputs, a no-input
transaction with nonzero output sum, or a regular transaction whose
inputs fail to resolve to exactly its output sum. -/
def txViolation (s : Store) (t : Transaction) : Prop :=
  (t.inputs.any (fun i => isCoinbaseInput i.txId) ∧ t.inputs.any (fun i => !isCoinbaseInput i.txId))
  ∨ (t.inputs = [] ∧ txOutputSum t ≠ 0)
  ∨ (isRegularTx t ∧ specInputSum s t.inputs ≠ some (txOutputSum t))

/-- How ingestion may transform a pre-existing row: untouched, or (if it
was unspent) marked spent by one of the ids in `ids`. -/
def modRel (ids : List String) (orig cur : Utxo) : Prop :=
  cur = orig ∨ (orig.spent = false ∧ ∃ t ∈ ids, cur = markUtxo orig t)

/-- The relation between the store `sK` at the rollback target and a later
store `s`: `s` is `sK` with some unspent rows marked by transactions of
later blocks, followed by rows created above height `K`, whose producing
ids never occur as spend marks of `sK`. -/
def rollInv (sK : Store) (K : Int) (s : Store) : Prop :=
  ∃ old tail, s = old ++ tail
    ∧ List.Forall₂ (modRel (tail.map (·.txid))) sK old
    ∧ (∀ u ∈ tail, K < u.blockHeight)
    ∧ (∀ t ∈ tail.map (·.txid), t ∉ stamps sK)
    ∧ keysNodup s
    ∧ K ≤ getMaxBlockHeight s

/-- Height contiguity: the heights present are exactly `{1 .. tip}`. -/
def heightsOk (s : Store) : Prop :=
  ∀ h : Int, (∃ u ∈ s, u.blockHeight = h) ↔ (1 ≤ h ∧ h ≤ getMaxBlockHeight s)

/-! ## Concrete blocks used in witnesses and counterexamples

The block ids are genuine SHA-256 digests of the corresponding
`decimal(height) ++ concat(pad64(tx.id))` strings; `decide` recomputes
them through `sha256hex` when these blocks are processed. -/

/-- Height-1 block with no transactions; its id is `sha256hex "1"`. -/
def bEmpty : Block :=
  { id := "6b86b273ff34fce19d6b804eff5a3f5747ada4eaa22f1d49c01e52ddb7875b4b",
    height := 1, transactions := [] }

def txA : Transaction :=
  { id := "a", inputs := [{ txId := "0", index := 0 }],
    outputs := [{ address := "x", value := 5 }] }

/-- Height-1 coinbase block whose single transaction has the short id `"a"`. -/
def blkA : Block :=
  { id := "c715ee9d7c7b84f193f14b84c062be5fb0c80dc238b02c3f41e457dcc2b2ba43",
    height := 1, transactions := [txA] }

def txB : Transaction :=
  { id := "b", inputs := [{ txId := "a", index := 0 }],
    outputs := [{ address := "y", value := 5 }] }

/-- Height-2 block spending `("a", 0)` with the short id `"b"`. -/
def blkB : Block :=
  { id := "605c2478d63e321a24d981462ccc7827a16191d886d5b14849636c71ec5162f6",
    height := 2, transactions := [txB] }

def wt1 : Transaction :=
  { id := "t1", inputs := [{ txId := "0", index := 0 }],
    outputs := [{ address := "A", value := 10 }] }

def wb1 : Block :=
  { id := "db8ec0248df98c2b43fdd3f10bef799550516833aee837e1de87bae3d3594b03",
    height := 1, transactions := [wt1] }

def wt2 : Transaction :=
  { id := "t2", inputs := [{ txId := "t1", index := 0 }],
    outputs := [{ address := "B", value := 10 }] }

def wb2 : Block :=
  { id := "26fad8053876009fee3c79ac861197dab5f6e497e8c94bd6c2b3864c1bde9556",
    height := 2, transactions := [wt2] }

def txT : Transaction :=
  { id := "t", inputs := [{ txId := "0", index := 0 }],
    outputs := [{ address := "x", value := 5 }] }

def blkT : Block :=
  { id := "5245aaf0578afd9fe8a9273905ea99299f4b8a29fd4cd3619e0bdd3b38ee8e55",
    height := 1, transactions := [txT] }

/-- A transaction naming the same UTXO `("t", 0)` twice; the conservation
check resolves both occurrences to the same row and passes, the apply
phase hits `UTXONotFound` on the second `markAsSpent`. -/
def txDup : Transaction :=
  { id := "x2", inputs := [{ txId := "t", index := 0 }, { txId := "t", index := 0 }],
    outputs := [{ address := "y", value := 10 }] }

def blkDup : Block :=
  { id := "5347ed809758d9a854fd6e473457188e390f58da17388c3447ebd74e3289af26",
    height := 2, transactions := [txDup] }

def txC1 : Transaction :=
  { id := "c1", inputs := [{ txId := "0", index := 0 }],
    outputs := [{ address := "A", value := 5 }] }

/-- A sibling transaction spending `txC1`'s output inside the same block. -/
def txS2 : Transaction :=
  { id := "s2", inputs := [{ txId := "c1", index := 0 }],
    outputs := [{ address := "B", value := 5 }] }

/-- Height-1 block in which the second transaction spends the first one's
output. -/
def blkSib : Block :=
  { id := "8376dda6ebf7a78a657fc146f93623ad79fcc328d5f72816915168db8d33cd4e",
    height := 1, transactions := [txC1, txS2] }

/-- A concrete unspent height-1 row. -/
def uA : Utxo :=
  { txid := "a", vout := 0, address := "x", value := 5, scriptPubkey := "",
    blockHeight := 1, spent := false, spentTxid := none }

/-- A block whose only transaction has no inputs but a nonzero output sum
(rejected by the conservation check), and a wrong id on top. -/
def bZero : Block :=
  { id := "junk", height := 1,
    transactions := [{ id := "z", inputs := [], outputs := [{ address := "x", value := 5 }] }] }

/-- The row `("a", 0)` after being spent by transaction `"b"`. -/
def uASpent : Utxo :=
  { txid := "a", vout := 0, address := "x", value := 5, scriptPubkey := "",
    blockHeight := 1, spent := true, spentTxid := some "b" }

/-- The row created by transaction `"b"` at height 2. -/
def uB : Utxo :=
  { txid := "b", vout := 0, address := "y", value := 5, scriptPubkey := "",
    blockHeight := 2, spent := false, spentTxid := none }

/-- The coinbase output of `wt1` after `wt2` spends it. -/
def wu1 : Utxo :=
  { txid := "t1", vout := 0, address := "A", value := 10, scriptPubkey := "",
    blockHeight := 1, spent := true, spentTxid := some "t2" }

/-- The output of `wt2` at height 2. -/
def wu2 : Utxo :=
  { txid := "t2", vout := 0, address := "B", value := 10, scriptPubkey := "",
    blockHeight := 2, spent := false, spentTxid := none }

/-! ## List/max infrastructure -/

theorem le_foldl_max (a : Int) (l : List Int) : a ≤ l.foldl max a := by
  induction l generalizing a with
  | nil => exact le_refl a
  | cons x t ih => exact le_trans (le_max_left a x) (ih (max a x))

theorem mem_le_foldl_max {x : Int} {l : List Int} (a : Int) (hx : x ∈ l) :
    x ≤ l.foldl max a := by
  induction l generalizing a with
  | nil => cases hx
  | cons y t ih =>
    rcases List.mem_cons.mp hx with h | h
    · subst h; exact le_trans (le_max_right a x) (le_foldl_max _ _)
    · exact ih _ h

theorem foldl_max_le {a c : Int} {l : List Int} (ha : a ≤ c) (hl : ∀ x ∈ l, x ≤ c) :
    l.foldl max a ≤ c := by
  induction l generalizing a with
  | nil => exact ha
  | cons y t ih =>
    exact ih (max_le ha (hl y (List.mem_cons_self y t)))
      (fun x hx => hl x (List.mem_cons_of_mem _ hx))

theorem foldl_max_cases (a : Int) (l : List Int) : l.foldl max a = a ∨ l.foldl max a ∈ l := by
  induction l generalizing a with
  | nil => exact Or.inl rfl
  | cons y t ih =>
    rw [List.foldl_cons]
    rcases ih (max a y) with h | h
    · rcases max_choice a y with h2 | h2
      · exact Or.inl (h.trans h2)
      · exact Or.inr (List.mem_cons.mpr (Or.inl (h.trans h2)))
    · exact Or.inr (List.mem_cons_of_mem _ h)

theorem mem_le_maxList {x : Int} {l : List Int} (hx : x ∈ l) : x ≤ maxList l := by
  match l with
  | y :: t =>
    rcases List.mem_cons.mp hx with h | h
    · subst h; exact le_foldl_max _ _
    · exact mem_le_foldl_max _ h

theorem maxList_le {c : Int} {l : List Int} (h0 : 0 ≤ c) (hl : ∀ x ∈ l, x ≤ c) :
    maxList l ≤ c := by
  match l with
  | [] => exact h0
  | y :: t =>
    exact foldl_max_le (hl y (List.mem_cons_self y t))
      (fun x hx => hl x (List.mem_cons_of_mem _ hx))

theorem maxList_mem {l : List Int} (h : l ≠ []) : maxList l ∈ l := by
  match l with
  | y :: t =>
    show t.foldl max y ∈ y :: t
    rcases foldl_max_cases y t with h2 | h2
    · rw [h2]; exact List.mem_cons_self y t
    · exact List.mem_cons_of_mem _ h2

theorem mem_height_le_tip {u : Utxo} {s : Store} (hu : u ∈ s) :
    u.blockHeight ≤ getMaxBlockHeight s :=
  mem_le_maxList (List.mem_map_of_mem _ hu)

theorem tip_nonneg {s : Store} (h1 : ∀ u ∈ s, 0 ≤ u.blockHeight) :
    0 ≤ getMaxBlockHeight s := by
  match s with
  | [] => exact le_refl 0
  | u :: t =>
    have hm := maxList_mem (l := (u :: t).map (·.blockHeight)) (by simp)
    rcases List.mem_map.mp hm with ⟨v, hv, hveq⟩
    show 0 ≤ maxList ((u :: t).map (·.blockHeight))
    rw [← hveq]
    exact h1 v hv

/-! ## Service-level characterizations -/

theorem validateHeight_ok_iff {h : Int} {s : Store} :
    validateHeight h s = .ok () ↔ h = getMaxBlockHeight s + 1 := by
  unfold validateHeight validateHeightR
  split <;> simp_all

theorem validateHeight_err {h : Int} {s : Store} (hne : h ≠ getMaxBlockHeight s + 1) :
    validateHeight h s =
      .error (.invalidBlockHeight (some (getMaxBlockHeight s)) (some h)) := by
  unfold validateHeight validateHeightR
  simp [hne]

theorem validateBlockId_ok_iff {b : Block} :
    validateBlockId b = .ok () ↔ b.id = expectedBlockId b.height b.transactions := by
  unfold validateBlockId
  split <;> simp_all

theorem validateBlockId_err_iff {b : Block} :
    validateBlockId b = .error .invalidBlockId ↔
      b.id ≠ expectedBlockId b.height b.transactions := by
  unfold validateBlockId
  split <;> simp_all

theorem validateCoinbase_err_kind {txs : List Transaction} {e : AppError}
    (h : validateCoinbaseTransactions txs = .error e) : e = .invalidInputOutputSum := by
  induction txs with
  | nil => simp [validateCoinbaseTransactions] at h
  | cons t rest ih =>
    unfold validateCoinbaseTransactions at h
    split at h
    · cases h; rfl
    · split at h
      · exact ih h
      · split at h
        · cases h; rfl
        · exact ih h

theorem txInputSum_err_kind {utxos : List Utxo} {inputs : List TxInput} {e : AppError}
    (h : txInputSum utxos inputs = .error e) : e = .invalidInputOutputSum := by
  induction inputs with
  | nil => simp [txInputSum] at h
  | cons i rest ih =>
    unfold txInputSum at h
    split at h
    · cases h; rfl
    · rename_i u _
      cases hr : txInputSum utxos rest with
      | error e' => rw [hr] at h; cases h; exact ih hr
      | ok v => rw [hr] at h; simp [Except.map] at h

theorem validateRegularList_err_kind {utxos : List Utxo} {txs : List Transaction} {e : AppError}
    (h : validateRegularList utxos txs = .error e) : e = .invalidInputOutputSum := by
  induction txs with
  | nil => simp [validateRegularList] at h
  | cons t rest ih =>
    unfold validateRegularList at h
    split at h
    · rename_i heq
      cases h
      exact txInputSum_err_kind heq
    · split at h
      · cases h; rfl
      · exact ih h


theorem validateSum_err_kind {b : Block} {s : Store} {e : AppError}
    (h : validateInputOutputSum b s = .error e) : e = .invalidInputOutputSum := by
  unfold validateInputOutputSum at h
  split at h
  · rename_i heq; cases h; exact validateCoinbase_err_kind heq
  · unfold validateRegularTransactions validateRegularTransactionsR at h
    split at h
    · simp at h
    · exact validateRegularList_err_kind h

theorem processBlock_height_err {b : Block} {s : Store}
    (hne : b.height ≠ getMaxBlockHeight s + 1) :
    processBlock b s =
      (some (.invalidBlockHeight (some (getMaxBlockHeight s)) (some b.height)), s) := by
  unfold processBlock
  rw [validateHeight_err hne]

theorem processBlock_sum_err {b : Block} {s : Store} {e : AppError}
    (hh : b.height = getMaxBlockHeight s + 1)
    (hs : validateInputOutputSum b s = .error e) :
    processBlock b s = (some e, s) := by
  unfold processBlock
  rw [validateHeight_ok_iff.mpr hh, hs]

theorem processBlock_id_err {b : Block} {s : Store}
    (hh : b.height = getMaxBlockHeight s + 1)
    (hsum : validateInputOutputSum b s = .ok ())
    (hid : b.id ≠ expectedBlockId b.height b.transactions) :
    processBlock b s = (some .invalidBlockId, s) := by
  unfold processBlock
  rw [validateHeight_ok_iff.mpr hh, hsum, validateBlockId_err_iff.mpr hid]

theorem processBlock_apply {b : Block} {s : Store}
    (hh : b.height = getMaxBlockHeight s + 1)
    (hsum : validateInputOutputSum b s = .ok ())
    (hid : b.id = expectedBlockId b.height b.transactions) :
    processBlock b s = applyTxs b.height b.transactions s := by
  unfold processBlock
  rw [validateHeight_ok_iff.mpr hh, hsum, validateBlockId_ok_iff.mpr hid]

theorem applyTxInputs_err_kind {spender : String} {inputs : List TxInput} {s : Store}
    (h : (applyTxInputs spender inputs s).1 = some e) :
    e = .utxoNotFound := by
  induction inputs generalizing s with
  | nil => simp [applyTxInputs] at h
  | cons i rest ih =>
    unfold applyTxInputs at h
    split at h
    · exact ih h
    · split at h
      · rename_i e' heq
        unfold markAsSpent at heq
        split at heq
        · cases heq; cases h; rfl
        · split at heq
          · cases heq; cases h; rfl
          · cases heq
      · exact ih h

theorem applyTxOutputs_err_kind {txid : String} {height : Int} {outs : List TxOutput}
    {idx : Int} {s : Store}
    (h : (applyTxOutputs txid height outs idx s).1 = some e) :
    e = .databaseError := by
  induction outs generalizing idx s with
  | nil => simp [applyTxOutputs] at h
  | cons o rest ih =>
    unfold applyTxOutputs at h
    split at h
    · rename_i e' heq
      unfold insertUtxo at heq
      split at heq
      · cases heq; cases h; rfl
      · cases heq
    · exact ih h

theorem applyTxs_err_kind {height : Int} {txs : List Transaction} {s : Store}
    (h : (applyTxs height txs s).1 = some e) :
    e = .utxoNotFound ∨ e = .databaseError := by
  induction txs generalizing s with
  | nil => simp [applyTxs] at h
  | cons t rest ih =>
    unfold applyTxs at h
    split at h
    · rename_i e' s' heq
      simp only [Option.some.injEq] at h
      subst h
      exact Or.inl (applyTxInputs_err_kind (by rw [heq]))
    · rename_i s' heq
      split at h
      · rename_i e'' s'' heq2
        simp only [Option.some.injEq] at h
        subst h
        exact Or.inr (applyTxOutputs_err_kind (by rw [heq2]))
      · exact ih h

theorem applyTxs_noop {height : Int} {txs : List Transaction} {s : Store}
    (h : ∀ t ∈ txs, t.inputs = [] ∧ t.outputs = []) :
    applyTxs height txs s = (none, s) := by
  induction txs with
  | nil => rfl
  | cons t rest ih =>
    obtain ⟨hi, ho⟩ := h t (List.mem_cons_self t rest)
    unfold applyTxs
    rw [hi, ho]
    exact ih (fun t' ht' => h t' (List.mem_cons_of_mem _ ht'))

theorem validateCoinbase_ok_of_inert {txs : List Transaction}
    (h : ∀ t ∈ txs, t.inputs = [] ∧ t.outputs = []) :
    validateCoinbaseTransactions txs = .ok () := by
  induction txs with
  | nil => rfl
  | cons t rest ih =>
    obtain ⟨hi, ho⟩ := h t (List.mem_cons_self t rest)
    have hsum : txOutputSum t = 0 := by simp [txOutputSum, ho]
    unfold validateCoinbaseTransactions
    rw [hi]
    rw [if_neg (by simp), if_neg (by simp), if_neg (by simp [hsum])]
    exact ih (fun t' ht' => h t' (List.mem_cons_of_mem _ ht'))

theorem regular_filter_nil_of_inert {txs : List Transaction}
    (h : ∀ t ∈ txs, t.inputs = [] ∧ t.outputs = []) :
    txs.filter isRegularTx = [] := by
  rw [List.filter_eq_nil_iff]
  intro t ht
  simp [isRegularTx, (h t ht).1]

theorem validateSum_ok_of_inert {b : Block} {s : Store}
    (h : ∀ t ∈ b.transactions, t.inputs = [] ∧ t.outputs = []) :
    validateInputOutputSum b s = .ok () := by
  unfold validateInputOutputSum
  rw [validateCoinbase_ok_of_inert h]
  unfold validateRegularTransactions validateRegularTransactionsR
  rw [regular_filter_nil_of_inert h]
  rfl

/-- C10: a block whose transactions all have no inputs and no outputs (in
particular, a block with no transactions) is accepted when the height and
block-identity checks pass, writes nothing, and leaves the tip — hence
the next required height — unchanged. -/
theorem empty_block_accepted_no_writes (b : Block) (s : Store)
    (hh : b.height = getMaxBlockHeight s + 1)
    (hid : b.id = expectedBlockId b.height b.transactions)
    (htxs : ∀ t ∈ b.transactions, t.inputs = [] ∧ t.outputs = []) :
    processBlock b s = (none, s) ∧
      getMaxBlockHeight (processBlock b s).2 = getMaxBlockHeight s := by
  have happ : processBlock b s = (none, s) := by
    rw [processBlock_apply hh (validateSum_ok_of_inert htxs) hid]
    exact applyTxs_noop htxs
  exact ⟨happ, by rw [happ]⟩

theorem empty_block_accepted_no_writes_witness :
    (bEmpty.height = getMaxBlockHeight ([] : Store) + 1
      ∧ bEmpty.id = expectedBlockId bEmpty.height bEmpty.transactions
      ∧ ∀ t ∈ bEmpty.transactions, t.inputs = [] ∧ t.outputs = [])
    ∧ processBlock bEmpty [] = (none, ([] : Store)) :=
  ⟨⟨by decide, by decide, by decide⟩,
    (empty_block_accepted_no_writes bEmpty [] (by decide) (by decide) (by decide)).1⟩

/-- C6 (amended): the checks run in the fixed order height, conservation,
block identity; each failure returns with the store unchanged; the height
error carries the observed height and the *current* tip height (the
expected height is `current + 1`, not itself a payload field). -/
theorem validation_order_and_no_writes (b : Block) (s : Store) :
    (b.height ≠ getMaxBlockHeight s + 1 →
      processBlock b s =
        (some (.invalidBlockHeight (some (getMaxBlockHeight s)) (some b.height)), s)) ∧
    (∀ e, b.height = getMaxBlockHeight s + 1 → validateInputOutputSum b s = .error e →
      processBlock b s = (some e, s) ∧ e = .invalidInputOutputSum) ∧
    (b.height = getMaxBlockHeight s + 1 → validateInputOutputSum b s = .ok () →
      b.id ≠ expectedBlockId b.height b.transactions →
      processBlock b s = (some .invalidBlockId, s)) := by
  refine ⟨processBlock_height_err, ?_, processBlock_id_err⟩
  intro e hh hsum
  exact ⟨processBlock_sum_err hh hsum, validateSum_err_kind hsum⟩

theorem validation_order_and_no_writes_witness :
    (blkA.height ≠ getMaxBlockHeight [uA] + 1
      ∧ processBlock blkA [uA] = (some (.invalidBlockHeight (some 1) (some 1)), [uA]))
    ∧ (validateInputOutputSum bZero [] = .error .invalidInputOutputSum
      ∧ processBlock bZero [] = (some .invalidInputOutputSum, [])) := by
  refine ⟨⟨by decide, ?_⟩, ⟨by decide, ?_⟩⟩
  · exact (validation_order_and_no_writes blkA _).1 (by decide)
  · exact ((validation_order_and_no_writes bZero []).2.1 .invalidInputOutputSum (by decide)
      (by decide)).1

/-- C6 counterexample to the payload claim: at tip 0 a block of height 5
is rejected with `InvalidBlockHeight` carrying `currentHeight = 0` and
`height = 5`; the expected height `1` is not carried. -/
theorem height_error_payload_counterexample :
    processBlock { id := "x", height := 5, transactions := [] } [] =
      (some (.invalidBlockHeight (some 0) (some 5)), []) ∧
    getMaxBlockHeight ([] : Store) + 1 ≠ 0 ∧ getMaxBlockHeight ([] : Store) + 1 ≠ 5 := by
  refine ⟨?_, by decide, by decide⟩
  decide

theorem validateRollbackHeight_ok {target : Int} {s : Store}
    (h0 : 0 ≤ target) (ht : target ≤ getMaxBlockHeight s) :
    validateRollbackHeight target s = .ok () := by
  unfold validateRollbackHeight validateRollbackHeightR
  rw [if_neg (by omega)]
  exact if_neg (by omega)

/-- C7: rollback fails `InvalidRollbackHeight` on a negative target or a
target above the tip; with nothing above the target it fails
`NoBlocksToRollback` carrying the target and the current height;
`rollbackToHeight(tip())` always fails that way, store unchanged. -/
theorem rollback_validation_errors (s : Store) (target : Int) :
    (target < 0 → rollbackToHeight target s = (some (.invalidRollbackHeight target none), s)) ∧
    (0 ≤ target → getMaxBlockHeight s < target →
      rollbackToHeight target s =
        (some (.invalidRollbackHeight target (some (getMaxBlockHeight s))), s)) ∧
    (0 ≤ target → target ≤ getMaxBlockHeight s → (∀ u ∈ s, u.blockHeight ≤ target) →
      rollbackToHeight target s =
        (some (.noBlocksToRollback target (getMaxBlockHeight s)), s)) ∧
    ((∀ u ∈ s, 1 ≤ u.blockHeight) →
      rollbackToHeight (getMaxBlockHeight s) s =
        (some (.noBlocksToRollback (getMaxBlockHeight s) (getMaxBlockHeight s)), s)) := by
  have hmain : ∀ tgt : Int, 0 ≤ tgt → tgt ≤ getMaxBlockHeight s →
      (∀ u ∈ s, u.blockHeight ≤ tgt) →
      rollbackToHeight tgt s =
        (some (.noBlocksToRollback tgt (getMaxBlockHeight s)), s) := by
    intro tgt h0 ht hall
    unfold rollbackToHeight
    rw [validateRollbackHeight_ok h0 ht]
    have hempty : findUTXOsByBlockHeight tgt s = [] := by
      unfold findUTXOsByBlockHeight
      rw [List.filter_eq_nil_iff]
      intro u hu
      simpa using not_lt.mpr (hall u hu)
    rw [hempty]
    rfl
  refine ⟨?_, ?_, hmain target, ?_⟩
  · intro hneg
    unfold rollbackToHeight validateRollbackHeight validateRollbackHeightR
    rw [if_pos hneg]
  · intro h0 hgt
    have hv : validateRollbackHeight target s =
        .error (.invalidRollbackHeight target (some (getMaxBlockHeight s))) := by
      unfold validateRollbackHeight validateRollbackHeightR
      rw [if_neg (by omega)]
      exact if_pos (by omega)
    unfold rollbackToHeight
    rw [hv]
  · intro h1
    exact hmain (getMaxBlockHeight s)
      (tip_nonneg (fun u hu => le_trans (by omega) (h1 u hu)))
      (le_refl _) (fun u hu => mem_height_le_tip hu)

theorem rollback_validation_errors_witness :
    ((-1 : Int) < 0
      ∧ rollbackToHeight (-1) [uA] = (some (.invalidRollbackHeight (-1) none), [uA]))
    ∧ ((∀ u ∈ [uA], (1 : Int) ≤ u.blockHeight)
      ∧ rollbackToHeight (getMaxBlockHeight [uA]) [uA] =
          (some (.noBlocksToRollback (getMaxBlockHeight [uA]) (getMaxBlockHeight [uA])), [uA])) := by
  refine ⟨⟨by decide, ?_⟩, ⟨by decide, ?_⟩⟩
  · exact (rollback_validation_errors [uA] (-1)).1 (by decide)
  · exact (rollback_validation_errors [uA] (getMaxBlockHeight [uA])).2.2.2 (by decide)

/-- C4: `padTxId` always produces exactly 64 characters; the recomputed
block id is `sha256hex(decimal(height) ++ concat(pad64(tx.id)))`
(UTF-8 bytes hashed, lowercase hex out, by definition of `sha256hex`);
given the two earlier checks passed, `processBlock` fails with
`InvalidBlockId` exactly when the submitted id differs from it. -/
theorem block_identity_check (b : Block) (s : Store) :
    (∀ str : String, (padTxId str).length = 64) ∧
    (expectedBlockId b.height b.transactions =
      sha256hex (toString b.height ++ String.join (b.transactions.map (fun t => padTxId t.id)))) ∧
    (validateBlockId b = .error .invalidBlockId ↔
      b.id ≠ expectedBlockId b.height b.transactions) ∧
    (b.height = getMaxBlockHeight s + 1 → validateInputOutputSum b s = .ok () →
      ((processBlock b s).1 = some .invalidBlockId ↔
        b.id ≠ expectedBlockId b.height b.transactions)) := by
  refine ⟨?_, rfl, validateBlockId_err_iff, ?_⟩
  · intro str
    show (String.mk ((str.data ++ List.replicate (64 - str.length) '0').take 64)).length = 64
    show ((str.data ++ List.replicate (64 - str.length) '0').take 64).length = 64
    rw [List.length_take, List.length_append, List.length_replicate]
    have : str.length = str.data.length := rfl
    omega
  · intro hh hsum
    constructor
    · intro hres
      by_contra heq
      rw [processBlock_apply hh hsum heq] at hres
      rcases applyTxs_err_kind hres with h | h <;> cases h
    · intro hne
      rw [processBlock_id_err hh hsum hne]

theorem block_identity_check_witness :
    (blkA.height = getMaxBlockHeight ([] : Store) + 1
      ∧ validateInputOutputSum blkA [] = .ok ())
    ∧ ((padTxId "a").length = 64
      ∧ ((processBlock blkA []).1 = some .invalidBlockId ↔
          blkA.id ≠ expectedBlockId blkA.height blkA.transactions)) := by
  refine ⟨⟨by decide, by decide⟩, ?_, ?_⟩
  · exact (block_identity_check blkA []).1 "a"
  · exact (block_identity_check blkA []).2.2.2 (by decide) (by decide)

/-! ## The batched UTXO lookup resolves like the per-input spec lookup -/

theorem findBy_eq_filter (refs : List TxInput) (s : Store) :
    findByTxIdsAndVouts refs s =
      s.filter (fun u => refs.any (fun r => u.txid == r.txId && u.vout == r.index && u.spent == false)) := by
  unfold findByTxIdsAndVouts
  split
  · rename_i hrefs
    rw [List.isEmpty_iff] at hrefs
    subst hrefs
    simp
  · rfl

theorem lookup_foldl_none {k : String} {v : Int} {l : List Utxo}
    (h : ∀ u ∈ l, ¬(u.txid = k ∧ u.vout = v)) (acc : Option Utxo) :
    l.foldl (fun acc u => if u.txid == k && u.vout == v then some u else acc) acc = acc := by
  induction l generalizing acc with
  | nil => rfl
  | cons u t ih =>
    have hu : (u.txid == k && u.vout == v) = false := by
      have := h u (List.mem_cons_self u t)
      simp only [beq_iff_eq, Bool.and_eq_false_iff, beq_eq_false_iff_ne, ne_eq]
      tauto
    rw [List.foldl_cons, hu]
    exact ih (fun w hw => h w (List.mem_cons_of_mem _ hw)) acc

theorem lookup_foldl_some {k : String} {v : Int} {l : List Utxo} :
    ∀ (acc : Option Utxo) (u : Utxo),
      l.foldl (fun acc u => if u.txid == k && u.vout == v then some u else acc) acc = some u →
      (u ∈ l ∧ u.txid = k ∧ u.vout = v) ∨ acc = some u := by
  induction l with
  | nil => exact fun acc u h => Or.inr h
  | cons w t ih =>
    intro acc u h
    rw [List.foldl_cons] at h
    by_cases hw : (w.txid == k && w.vout == v) = true
    · rw [if_pos hw] at h
      rcases ih (some w) u h with h2 | h2
      · exact Or.inl ⟨List.mem_cons_of_mem _ h2.1, h2.2⟩
      · cases h2
        simp only [beq_iff_eq, Bool.and_eq_true] at hw
        exact Or.inl ⟨List.mem_cons_self w t, by simpa using hw⟩
    · rw [if_neg hw] at h
      rcases ih acc u h with h2 | h2
      · exact Or.inl ⟨List.mem_cons_of_mem _ h2.1, h2.2⟩
      · exact Or.inr h2

theorem lookup_foldl_isSome {k : String} {v : Int} {l : List Utxo} :
    ∀ acc : Option Utxo,
      (acc.isSome ∨ ∃ u ∈ l, u.txid = k ∧ u.vout = v) →
      (l.foldl (fun acc u => if u.txid == k && u.vout == v then some u else acc) acc).isSome := by
  induction l with
  | nil =>
    intro acc h
    rcases h with h | ⟨u, hu, _⟩
    · exact h
    · cases hu
  | cons w t ih =>
    intro acc h
    rw [List.foldl_cons]
    by_cases hc : (w.txid == k && w.vout == v) = true
    · rw [if_pos hc]
      exact ih _ (Or.inl rfl)
    · rw [if_neg hc]
      refine ih _ ?_
      rcases h with h | ⟨u, hu, hku⟩
      · exact Or.inl h
      · rcases List.mem_cons.mp hu with h2 | h2
        · subst h2
          exact absurd (by simp [hku.1, hku.2]) hc
        · exact Or.inr ⟨u, h2, hku⟩

theorem utxoLookup_none_iff {l : List Utxo} {k : String} {v : Int} :
    utxoLookup l k v = none ↔ ∀ u ∈ l, ¬(u.txid = k ∧ u.vout = v) := by
  constructor
  · intro h u hu hk
    have h2 := lookup_foldl_isSome (k := k) (v := v) (l := l) none (Or.inr ⟨u, hu, hk⟩)
    rw [show l.foldl (fun acc u => if u.txid == k && u.vout == v then some u else acc) none
      = utxoLookup l k v from rfl, h] at h2
    cases h2
  · intro h
    exact lookup_foldl_none h none

theorem utxoLookup_some {l : List Utxo} {k : String} {v : Int} {u : Utxo}
    (h : utxoLookup l k v = some u) : u ∈ l ∧ u.txid = k ∧ u.vout = v := by
  rcases lookup_foldl_some none u h with h2 | h2
  · exact h2
  · cases h2

theorem utxoLookup_eq_some_of {l : List Utxo} {k : String} {v : Int} {u : Utxo}
    (hu : u ∈ l) (hk : u.txid = k ∧ u.vout = v)
    (huniq : ∀ w ∈ l, w.txid = k ∧ w.vout = v → w = u) :
    utxoLookup l k v = some u := by
  cases hres : utxoLookup l k v with
  | none => exact absurd hk (utxoLookup_none_iff.mp hres u hu)
  | some w =>
    obtain ⟨hwl, hwk⟩ := utxoLookup_some hres
    rw [huniq w hwl hwk]

theorem utxoLookup_findBy {s : Store} {refs : List TxInput} {i : TxInput}
    (hkeys : keysNodup s) (hi : i ∈ refs) :
    utxoLookup (findByTxIdsAndVouts refs s) i.txId i.index = resolveUnspent s i := by
  rw [findBy_eq_filter]
  cases hres : resolveUnspent s i with
  | some u =>
    have hu_mem : u ∈ s := List.mem_of_find?_eq_some hres
    have hu_p := List.find?_some hres
    simp only [Bool.and_eq_true, beq_iff_eq] at hu_p
    obtain ⟨⟨htx, hvout⟩, hspent⟩ := hu_p
    apply utxoLookup_eq_some_of
    · rw [List.mem_filter]
      refine ⟨hu_mem, ?_⟩
      rw [List.any_eq_true]
      exact ⟨i, hi, by simp [htx, hvout, hspent]⟩
    · exact ⟨htx, hvout⟩
    · intro w hw hkw
      rw [List.mem_filter] at hw
      exact List.inj_on_of_nodup_map hkeys hw.1 hu_mem
        (by simp [rowKey, hkw.1, hkw.2, htx, hvout])
  | none =>
    rw [utxoLookup_none_iff]
    intro w hw hkw
    rw [List.mem_filter] at hw
    obtain ⟨hw_mem, hw_any⟩ := hw
    rw [List.any_eq_true] at hw_any
    obtain ⟨r, _, hcond⟩ := hw_any
    simp only [Bool.and_eq_true, beq_iff_eq] at hcond
    have hnone := List.find?_eq_none.mp hres w hw_mem
    simp only [Bool.and_eq_true, beq_iff_eq, not_and] at hnone
    exact hnone ⟨hkw.1, hkw.2⟩ hcond.2

theorem txInputSum_spec {s : Store} {refs : List TxInput} (hkeys : keysNodup s) :
    ∀ {inputs : List TxInput}, (∀ i ∈ inputs, i ∈ refs) →
      txInputSum (findByTxIdsAndVouts refs s) inputs =
        (match specInputSum s inputs with
         | some n => .ok n
         | none => .error .invalidInputOutputSum) := by
  intro inputs
  induction inputs with
  | nil => intro _; rfl
  | cons i rest ih =>
    intro hsub
    unfold txInputSum specInputSum
    rw [utxoLookup_findBy hkeys (hsub i (List.mem_cons_self i rest))]
    cases hres : resolveUnspent s i with
    | none => rfl
    | some u =>
      rw [ih (fun j hj => hsub j (List.mem_cons_of_mem _ hj))]
      cases hrest : specInputSum s rest with
      | none => rfl
      | some n => rfl

theorem specInputSum_none {s : Store} {inputs : List TxInput} {i : TxInput}
    (hi : i ∈ inputs) (hmiss : resolveUnspent s i = none) :
    specInputSum s inputs = none := by
  induction inputs with
  | nil => cases hi
  | cons j rest ih =>
    unfold specInputSum
    rcases List.mem_cons.mp hi with h | h
    · subst h
      rw [hmiss]
    · cases hres : resolveUnspent s j with
      | none => rfl
      | some u => rw [ih h]

theorem validateRegularList_cons_err {utxos : List Utxo} {t : Transaction}
    {rest : List Transaction} {e : AppError}
    (hsum : txInputSum utxos t.inputs = .error e) :
    validateRegularList utxos (t :: rest) = .error e := by
  conv_lhs => unfold validateRegularList
  rw [hsum]

theorem validateRegularList_cons_ok {utxos : List Utxo} {t : Transaction}
    {rest : List Transaction} {n : Int}
    (hsum : txInputSum utxos t.inputs = .ok n) :
    validateRegularList utxos (t :: rest) =
      if n ≠ txOutputSum t then .error .invalidInputOutputSum
      else validateRegularList utxos rest := by
  conv_lhs => unfold validateRegularList
  rw [hsum]

theorem validateRegularList_err_iff {utxos : List Utxo} {txs : List Transaction} :
    validateRegularList utxos txs = .error .invalidInputOutputSum ↔
      ∃ t ∈ txs, txInputSum utxos t.inputs ≠ .ok (txOutputSum t) := by
  induction txs with
  | nil => simp [validateRegularList]
  | cons t rest ih =>
    cases hsum : txInputSum utxos t.inputs with
    | error e =>
      have he := txInputSum_err_kind hsum
      subst he
      rw [validateRegularList_cons_err hsum]
      constructor
      · intro _
        exact ⟨t, List.mem_cons_self t rest, by rw [hsum]; intro hc; cases hc⟩
      · intro _; rfl
    | ok n =>
      rw [validateRegularList_cons_ok hsum]
      by_cases hne : n ≠ txOutputSum t
      · rw [if_pos hne]
        constructor
        · intro _
          refine ⟨t, List.mem_cons_self t rest, ?_⟩
          rw [hsum]
          intro hc
          cases hc
          exact hne rfl
        · intro _; rfl
      · rw [if_neg hne]
        rw [not_not] at hne
        rw [ih]
        constructor
        · rintro ⟨t', ht', hbad⟩
          exact ⟨t', List.mem_cons_of_mem _ ht', hbad⟩
        · rintro ⟨t', ht', hbad⟩
          rcases List.mem_cons.mp ht' with h | h
          · subst h
            rw [hsum, hne] at hbad
            exact absurd rfl hbad
          · exact ⟨t', h, hbad⟩

theorem validateCoinbase_err_iff {txs : List Transaction} :
    validateCoinbaseTransactions txs = .error .invalidInputOutputSum ↔
      ∃ t ∈ txs,
        (t.inputs.any (fun i => isCoinbaseInput i.txId) = true
          ∧ t.inputs.any (fun i => !isCoinbaseInput i.txId) = true)
        ∨ (t.inputs = [] ∧ txOutputSum t ≠ 0) := by
  induction txs with
  | nil => simp [validateCoinbaseTransactions]
  | cons t rest ih =>
    unfold validateCoinbaseTransactions
    by_cases h1 : (t.inputs.any (fun i => isCoinbaseInput i.txId)
        && t.inputs.any (fun i => !isCoinbaseInput i.txId)) = true
    · rw [if_pos h1]
      rw [Bool.and_eq_true] at h1
      constructor
      · intro _; exact ⟨t, List.mem_cons_self t rest, Or.inl h1⟩
      · intro _; rfl
    · rw [if_neg h1]
      by_cases h2 : (t.inputs.any (fun i => isCoinbaseInput i.txId)) = true
      · rw [if_pos h2, ih]
        constructor
        · rintro ⟨t', ht', hv⟩
          exact ⟨t', List.mem_cons_of_mem _ ht', hv⟩
        · rintro ⟨t', ht', hv⟩
          rcases List.mem_cons.mp ht' with h | h
          · subst h
            rcases hv with ⟨ha, hb⟩ | ⟨hnil, _⟩
            · exact absurd (by simp [ha, hb]) h1
            · rw [hnil] at h2; cases h2
          · exact ⟨t', h, hv⟩
      · rw [if_neg h2]
        by_cases h3 : (t.inputs.isEmpty && decide (txOutputSum t ≠ 0)) = true
        · rw [if_pos h3]
          simp only [Bool.and_eq_true, decide_eq_true_eq, List.isEmpty_iff] at h3
          constructor
          · intro _; exact ⟨t, List.mem_cons_self t rest, Or.inr h3⟩
          · intro _; rfl
        · rw [if_neg h3, ih]
          constructor
          · rintro ⟨t', ht', hv⟩
            exact ⟨t', List.mem_cons_of_mem _ ht', hv⟩
          · rintro ⟨t', ht', hv⟩
            rcases List.mem_cons.mp ht' with h | h
            · subst h
              rcases hv with ⟨ha, hb⟩ | ⟨hnil, hsum⟩
              · exact absurd (by simp [ha, hb]) h1
              · exact absurd (by simp [hnil, hsum]) h3
            · exact ⟨t', h, hv⟩

theorem validateRegularTransactions_err_iff {txs : List Transaction} {s : Store}
    (hkeys : keysNodup s) :
    validateRegularTransactions txs s = .error .invalidInputOutputSum ↔
      ∃ t ∈ txs, isRegularTx t = true ∧ specInputSum s t.inputs ≠ some (txOutputSum t) := by
  unfold validateRegularTransactions validateRegularTransactionsR
  by_cases hemp : (txs.filter isRegularTx).isEmpty = true
  · rw [if_pos hemp]
    rw [List.isEmpty_iff] at hemp
    constructor
    · intro hc; cases hc
    · rintro ⟨t, ht, hreg, _⟩
      have hmem : t ∈ txs.filter isRegularTx := List.mem_filter.mpr ⟨ht, hreg⟩
      rw [hemp] at hmem
      cases hmem
  · rw [if_neg hemp]
    rw [validateRegularList_err_iff]
    constructor
    · rintro ⟨t, ht, hbad⟩
      have htf := List.mem_filter.mp ht
      refine ⟨t, htf.1, htf.2, ?_⟩
      intro hc
      apply hbad
      have hsub : ∀ i ∈ t.inputs, i ∈ collectRefs txs := fun i hi =>
        List.mem_flatMap.mpr ⟨t, ht, hi⟩
      rw [txInputSum_spec hkeys hsub, hc]
    · rintro ⟨t, ht, hreg, hbad⟩
      have htf : t ∈ txs.filter isRegularTx := List.mem_filter.mpr ⟨ht, hreg⟩
      refine ⟨t, htf, ?_⟩
      have hsub : ∀ i ∈ t.inputs, i ∈ collectRefs txs := fun i hi =>
        List.mem_flatMap.mpr ⟨t, htf, hi⟩
      rw [txInputSum_spec hkeys hsub]
      cases hres : specInputSum s t.inputs with
      | none => intro hc; cases hc
      | some n =>
        intro hc
        cases hc
        rw [hres] at hbad
        exact hbad rfl

/-- C3: given the height check passed, the conservation check fails — and
fails with `InvalidInputOutputSum` — exactly when some transaction of the
block mixes coinbase and regular inputs, has no inputs but a nonzero
output sum, or is a regular transaction whose inputs fail to resolve in
the pre-block store to rows summing exactly to its output sum. -/
theorem conservation_check_iff (b : Block) (s : Store)
    (hkeys : keysNodup s)
    (hheight : validateHeight b.height s = .ok ()) :
    (validateInputOutputSum b s = .error .invalidInputOutputSum ↔
      ∃ t ∈ b.transactions, txViolation s t) ∧
    (∀ e, validateInputOutputSum b s = .error e → e = .invalidInputOutputSum) := by
  refine ⟨?_, fun e he => validateSum_err_kind he⟩
  unfold validateInputOutputSum
  cases hc : validateCoinbaseTransactions b.transactions with
  | error e =>
    have he := validateCoinbase_err_kind hc
    subst he
    constructor
    · intro _
      obtain ⟨t, ht, hv⟩ := (validateCoinbase_err_iff).mp hc
      refine ⟨t, ht, ?_⟩
      unfold txViolation
      tauto
    · intro _; rfl
  | ok u =>
    cases u
    rw [validateRegularTransactions_err_iff hkeys]
    constructor
    · rintro ⟨t, ht, hreg, hbad⟩
      exact ⟨t, ht, Or.inr (Or.inr ⟨hreg, hbad⟩)⟩
    · rintro ⟨t, ht, hv⟩
      rcases hv with hmix | hzero | hregbad
      · exact absurd hc (by rw [validateCoinbase_err_iff.mpr ⟨t, ht, Or.inl hmix⟩]; intro hcc; cases hcc)
      · exact absurd hc (by rw [validateCoinbase_err_iff.mpr ⟨t, ht, Or.inr hzero⟩]; intro hcc; cases hcc)
      · exact ⟨t, ht, hregbad.1, hregbad.2⟩

theorem conservation_check_iff_witness :
    (keysNodup ([] : Store) ∧ validateHeight blkSib.height [] = .ok ())
    ∧ (validateInputOutputSum blkSib [] = .error .invalidInputOutputSum ↔
        ∃ t ∈ blkSib.transactions, txViolation [] t) := by
  refine ⟨⟨by simp [keysNodup], by decide⟩, ?_⟩
  exact (conservation_check_iff blkSib [] (by simp [keysNodup]) (by decide)).1

/-- C5: validation reads only the pre-block store (`validateInputOutputSum`
is a function of the store as it stood before any of the block's effects,
by construction), so a transaction spending a sibling transaction's
output — an output with no matching unspent row in the pre-block store —
makes the block fail with `InvalidInputOutputSum`. -/
theorem sibling_spend_rejected (b : Block) (s : Store) (T1 T2 : Transaction) (i : TxInput)
    (hkeys : keysNodup s)
    (hh : b.height = getMaxBlockHeight s + 1)
    (hT1 : T1 ∈ b.transactions) (hT2 : T2 ∈ b.transactions)
    (hreg : isRegularTx T2 = true)
    (hi : i ∈ T2.inputs)
    (hsib : i.txId = T1.id)
    (hidx : 0 ≤ i.index ∧ i.index < (T1.outputs.length : Int))
    (hmiss : resolveUnspent s i = none) :
    processBlock b s = (some .invalidInputOutputSum, s) := by
  have hbad : specInputSum s T2.inputs ≠ some (txOutputSum T2) := by
    rw [specInputSum_none hi hmiss]
    intro hc
    cases hc
  have herr : validateInputOutputSum b s = .error .invalidInputOutputSum := by
    unfold validateInputOutputSum
    cases hc : validateCoinbaseTransactions b.transactions with
    | error e => rw [validateCoinbase_err_kind hc]
    | ok u =>
      cases u
      exact (validateRegularTransactions_err_iff hkeys).mpr ⟨T2, hT2, hreg, hbad⟩
  exact processBlock_sum_err hh herr

theorem sibling_spend_rejected_witness :
    (keysNodup ([] : Store)
      ∧ blkSib.height = getMaxBlockHeight ([] : Store) + 1
      ∧ txC1 ∈ blkSib.transactions ∧ txS2 ∈ blkSib.transactions
      ∧ isRegularTx txS2 = true
      ∧ ({ txId := "c1", index := 0 } : TxInput) ∈ txS2.inputs
      ∧ ({ txId := "c1", index := 0 } : TxInput).txId = txC1.id
      ∧ resolveUnspent [] { txId := "c1", index := 0 } = none)
    ∧ processBlock blkSib [] = (some .invalidInputOutputSum, []) := by
  refine ⟨⟨by simp [keysNodup], by decide, by decide, by decide, by decide, by decide,
    by decide, by decide⟩, ?_⟩
  exact sibling_spend_rejected blkSib [] txC1 txS2 { txId := "c1", index := 0 }
    (by simp [keysNodup]) (by decide) (by decide) (by decide) (by decide) (by decide)
    (by decide) (by decide) (by decide)

/-! ## Structure of the apply phase -/

theorem modRel_refl (ids : List String) (u : Utxo) : modRel ids u u := Or.inl rfl

theorem modRel_mono {ids ids' : List String} (hsub : ∀ x ∈ ids, x ∈ ids')
    {a b : Utxo} (h : modRel ids a b) : modRel ids' a b := by
  rcases h with h | ⟨hs, t, ht, he⟩
  · exact Or.inl h
  · exact Or.inr ⟨hs, t, hsub t ht, he⟩

theorem modRel_fields {ids : List String} {a b : Utxo} (h : modRel ids a b) :
    b.txid = a.txid ∧ b.vout = a.vout ∧ b.blockHeight = a.blockHeight
      ∧ b.address = a.address ∧ b.value = a.value := by
  rcases h with h | ⟨_, t, _, he⟩
  · subst h; exact ⟨rfl, rfl, rfl, rfl, rfl⟩
  · subst he; exact ⟨rfl, rfl, rfl, rfl, rfl⟩

theorem modRel_rowKey {ids : List String} {a b : Utxo} (h : modRel ids a b) :
    rowKey b = rowKey a := by
  obtain ⟨h1, h2, _, _, _⟩ := modRel_fields h
  unfold rowKey
  rw [h1, h2]

theorem modRel_trans {ids₁ ids₂ : List String} {a b c : Utxo}
    (h1 : modRel ids₁ a b) (h2 : modRel ids₂ b c) : modRel (ids₁ ++ ids₂) a c := by
  rcases h2 with h2 | ⟨hbs, t, ht, he⟩
  · subst h2
    exact modRel_mono (fun x hx => List.mem_append_left _ hx) h1
  · rcases h1 with h1 | ⟨has, t', _, he'⟩
    · subst h1
      exact Or.inr ⟨hbs, t, List.mem_append_right _ ht, he⟩
    · subst he'
      cases hbs

theorem forall₂_self_of {R : Utxo → Utxo → Prop} (hR : ∀ a, R a a) :
    ∀ l : Store, List.Forall₂ R l l
  | [] => .nil
  | a :: t => .cons (hR a) (forall₂_self_of hR t)

theorem forall₂_map_self {R : Utxo → Utxo → Prop} {f : Utxo → Utxo} :
    ∀ {l : Store}, (∀ x ∈ l, R x (f x)) → List.Forall₂ R l (l.map f)
  | [], _ => .nil
  | a :: t, h => .cons (h a (List.mem_cons_self a t))
      (forall₂_map_self (fun x hx => h x (List.mem_cons_of_mem _ hx)))

theorem forall₂_map_eq {α : Type} {R : Utxo → Utxo → Prop} {f : Utxo → α}
    (hf : ∀ a b, R a b → f b = f a) :
    ∀ {l l' : Store}, List.Forall₂ R l l' → l'.map f = l.map f := by
  intro l l' h
  induction h with
  | nil => rfl
  | cons hab _ ih => simp [ih, hf _ _ hab]

theorem forall₂_trans_modRel {ids₁ ids₂ : List String} :
    ∀ {l₁ l₂ l₃ : Store}, List.Forall₂ (modRel ids₁) l₁ l₂ →
      List.Forall₂ (modRel ids₂) l₂ l₃ → List.Forall₂ (modRel (ids₁ ++ ids₂)) l₁ l₃ := by
  intro l₁ l₂ l₃ h1 h2
  induction h1 generalizing l₃ with
  | nil => cases h2; exact .nil
  | cons hab h1' ih =>
    cases h2 with
    | cons hbc h2' => exact .cons (modRel_trans hab hbc) (ih h2')

theorem forall₂_mem_right {R : Utxo → Utxo → Prop} {l m : Store}
    (h : List.Forall₂ R l m) {b : Utxo} (hb : b ∈ m) : ∃ a ∈ l, R a b := by
  induction h with
  | nil => cases hb
  | cons hab _ ih =>
    rcases List.mem_cons.mp hb with h2 | h2
    · subst h2; exact ⟨_, List.mem_cons_self .., hab⟩
    · obtain ⟨a, ha, hr⟩ := ih h2
      exact ⟨a, List.mem_cons_of_mem _ ha, hr⟩

theorem forall₂_mem_left {R : Utxo → Utxo → Prop} {l m : Store}
    (h : List.Forall₂ R l m) {a : Utxo} (ha : a ∈ l) : ∃ b ∈ m, R a b := by
  induction h with
  | nil => cases ha
  | cons hab _ ih =>
    rcases List.mem_cons.mp ha with h2 | h2
    · subst h2; exact ⟨_, List.mem_cons_self .., hab⟩
    · obtain ⟨b, hb, hr⟩ := ih h2
      exact ⟨b, List.mem_cons_of_mem _ hb, hr⟩

theorem forall₂_append_split {R : Utxo → Utxo → Prop} :
    ∀ {l₁ l₂ l' : Store}, List.Forall₂ R (l₁ ++ l₂) l' →
      ∃ m₁ m₂, l' = m₁ ++ m₂ ∧ List.Forall₂ R l₁ m₁ ∧ List.Forall₂ R l₂ m₂ := by
  intro l₁
  induction l₁ with
  | nil => exact fun h => ⟨[], _, rfl, .nil, h⟩
  | cons a t ih =>
    intro l₂ l' h
    cases h with
    | cons hab h2 =>
      obtain ⟨m₁, m₂, rfl, f1, f2⟩ := ih h2
      exact ⟨_ :: m₁, m₂, rfl, .cons hab f1, f2⟩

theorem markAsSpent_ok {k : String} {v : Int} {t : String} {s s' : Store}
    (hkeys : keysNodup s) (h : markAsSpent k v t s = .ok s') :
    List.Forall₂ (modRel [t]) s s' := by
  unfold markAsSpent at h
  split at h
  · cases h
  · rename_i u hfind
    split at h
    · cases h
    · rename_i hspent
      cases h
      have hu_mem : u ∈ s := List.mem_of_find?_eq_some hfind
      have hu_p := List.find?_some hfind
      simp only [Bool.and_eq_true, beq_iff_eq] at hu_p
      rw [Bool.not_eq_true] at hspent
      apply forall₂_map_self
      intro x hx
      by_cases hxk : (x.txid == k && x.vout == v) = true
      · simp only [Bool.and_eq_true, beq_iff_eq] at hxk
        have hxu : x = u := List.inj_on_of_nodup_map hkeys hx hu_mem
          (by unfold rowKey; rw [hxk.1, hxk.2, hu_p.1, hu_p.2])
        right
        refine ⟨by rw [hxu]; exact hspent, t, List.mem_cons_self t [], ?_⟩
        rw [if_pos (by simp [hxk.1, hxk.2])]
      · left
        rw [if_neg hxk]

theorem insertUtxo_ok {u : Utxo} {s s' : Store} (h : insertUtxo u s = .ok s') :
    s' = s ++ [u] ∧ ∀ v ∈ s, rowKey v ≠ rowKey u := by
  unfold insertUtxo at h
  split at h
  · cases h
  · rename_i hany
    cases h
    refine ⟨rfl, fun w hw hc => ?_⟩
    rw [List.any_eq_true] at hany
    apply hany
    refine ⟨w, hw, ?_⟩
    unfold rowKey at hc
    have h1 : w.txid = u.txid := congrArg Prod.fst hc
    have h2 : w.vout = u.vout := congrArg Prod.snd hc
    simp [h1, h2]

theorem keysNodup_append_single {s : Store} {u : Utxo} (hk : keysNodup s)
    (hfresh : ∀ v ∈ s, rowKey v ≠ rowKey u) : keysNodup (s ++ [u]) := by
  unfold keysNodup at hk ⊢
  rw [List.map_append, List.nodup_append]
  refine ⟨hk, List.nodup_singleton _, ?_⟩
  intro x hx hy
  simp only [List.map_cons, List.map_nil, List.mem_singleton] at hy
  rcases List.mem_map.mp hx with ⟨w, hw, hweq⟩
  exact hfresh w hw (by rw [hweq, hy])

theorem applyTxInputs_ok {t : String} :
    ∀ {inputs : List TxInput} {s s' : Store}, keysNodup s →
      applyTxInputs t inputs s = (none, s') →
      List.Forall₂ (modRel [t]) s s' ∧ keysNodup s' := by
  intro inputs
  induction inputs with
  | nil =>
    intro s s' hk h
    cases h
    exact ⟨forall₂_self_of (modRel_refl _) s, hk⟩
  | cons i rest ih =>
    intro s s' hk h
    unfold applyTxInputs at h
    split at h
    · exact ih hk h
    · split at h
      · cases h
      · rename_i s₁ hmark
        have f1 := markAsSpent_ok hk hmark
        have hkeymap : s₁.map rowKey = s.map rowKey :=
          forall₂_map_eq (fun a b hr => modRel_rowKey hr) f1
        have hk₁ : keysNodup s₁ := by
          unfold keysNodup at hk ⊢
          rw [hkeymap]
          exact hk
        obtain ⟨f2, hk'⟩ := ih hk₁ h
        have hcomp := forall₂_trans_modRel f1 f2
        refine ⟨hcomp.imp (fun a b hr => modRel_mono (fun x hx => ?_) hr), hk'⟩
        simpa using hx

theorem applyTxOutputs_ok {txid : String} {hgt : Int} :
    ∀ {outs : List TxOutput} {idx : Int} {s s' : Store}, keysNodup s →
      applyTxOutputs txid hgt outs idx s = (none, s') →
      ∃ rows, s' = s ++ rows ∧ rows.length = outs.length
        ∧ (∀ u ∈ rows, u.txid = txid ∧ u.blockHeight = hgt ∧ u.spentTxid = none
            ∧ u.spent = false)
        ∧ keysNodup s' := by
  intro outs
  induction outs with
  | nil =>
    intro idx s s' hk h
    cases h
    exact ⟨[], by simp, rfl, by simp, hk⟩
  | cons o rest ih =>
    intro idx s s' hk h
    unfold applyTxOutputs at h
    split at h
    · cases h
    · rename_i s₁ hins
      obtain ⟨hs₁, hfresh⟩ := insertUtxo_ok hins
      subst hs₁
      have hk₁ : keysNodup (s ++ [_]) := keysNodup_append_single hk hfresh
      obtain ⟨rows, hs', hlen, hprops, hk'⟩ := ih hk₁ h
      refine ⟨{ txid := txid, vout := idx, address := o.address, value := o.value, scriptPubkey := "", blockHeight := hgt, spent := false, spentTxid := none } :: rows, by rw [hs']; simp, by simp [hlen], ?_, hk'⟩
      intro u hu
      rcases List.mem_cons.mp hu with h2 | h2
      · subst h2
        exact ⟨rfl, rfl, rfl, rfl⟩
      · exact hprops u h2

/-- The shape of a successful apply phase: pre-existing rows are at most
marked spent by ids of the block's transactions (`modRel`), and the new
rows — producing ids, heights, and spend marks all from the block — are
appended after them. -/
theorem applyTxs_ok_struct {hgt : Int} :
    ∀ {txs : List Transaction} {s s' : Store}, keysNodup s →
      applyTxs hgt txs s = (none, s') →
      ∃ pre rows, s' = pre ++ rows
        ∧ List.Forall₂ (modRel (txs.map (·.id))) s pre
        ∧ (∀ u ∈ rows, u.txid ∈ txs.map (·.id) ∧ u.blockHeight = hgt
            ∧ (∀ x, u.spentTxid = some x → x ∈ txs.map (·.id))
            ∧ (u.spent = false → u.spentTxid = none))
        ∧ (∀ t ∈ txs, t.outputs ≠ [] → t.id ∈ rows.map (·.txid))
        ∧ rows.length = (txs.map (fun t => t.outputs.length)).sum
        ∧ keysNodup s' := by
  intro txs
  induction txs with
  | nil =>
    intro s s' hk h
    cases h
    exact ⟨s, [], by simp, forall₂_self_of (modRel_refl _) s, by simp, by simp, by simp, hk⟩
  | cons t rest ih =>
    intro s s' hk h
    unfold applyTxs at h
    split at h
    · cases h
    · rename_i s₁ hin
      split at h
      · cases h
      · rename_i s₂ hout
        obtain ⟨f1, hk₁⟩ := applyTxInputs_ok hk hin
        obtain ⟨newRows, hs₂, hlen_new, hnewprops, hk₂⟩ := applyTxOutputs_ok hk₁ hout
        subst hs₂
        obtain ⟨pre₂, rows₂, hs', f2, hprops₂, hsurj₂, hlen₂, hk'⟩ := ih hk₂ h
        obtain ⟨p1, p2, hpre₂, f2a, f2b⟩ := forall₂_append_split f2
        subst hpre₂
        simp only [List.map_cons]
        refine ⟨p1, p2 ++ rows₂, ?_, ?_, ?_, ?_, ?_, hk'⟩
        · rw [hs', List.append_assoc]
        · have hcomp := forall₂_trans_modRel f1 f2a
          exact hcomp.imp (fun a b hr => modRel_mono (fun x hx => by simpa using hx) hr)
        · intro u hu
          rcases List.mem_append.mp hu with h2 | h2
          · obtain ⟨orig, horig, hrel⟩ := forall₂_mem_right f2b h2
            obtain ⟨ht1, hbh1, hst1, hsp1⟩ := hnewprops orig horig
            obtain ⟨htx, _, hbh, _, _⟩ := modRel_fields hrel
            refine ⟨by rw [htx, ht1]; exact List.mem_cons_self .., by rw [hbh, hbh1], ?_, ?_⟩
            · intro x hx
              rcases hrel with hrel | ⟨_, t', ht', he⟩
              · subst hrel
                rw [hst1] at hx
                cases hx
              · subst he
                simp only [markUtxo, Option.some.injEq] at hx
                subst hx
                exact List.mem_cons_of_mem _ ht'
            · intro hsp
              rcases hrel with hrel | ⟨_, t', ht', he⟩
              · subst hrel
                exact hst1
              · subst he
                simp [markUtxo] at hsp
          · obtain ⟨h2a, h2b, h2c, h2d⟩ := hprops₂ u h2
            exact ⟨List.mem_cons_of_mem _ h2a, h2b,
              fun x hx => List.mem_cons_of_mem _ (h2c x hx), h2d⟩
        · intro t' ht' houts
          rcases List.mem_cons.mp ht' with h2 | h2
          · subst h2
            have hne : newRows ≠ [] := by
              intro hc
              rw [hc] at hlen_new
              exact houts (List.eq_nil_of_length_eq_zero hlen_new.symm)
            obtain ⟨r0, hr0⟩ := List.exists_mem_of_ne_nil newRows hne
            obtain ⟨b0, hb0, hrel0⟩ := forall₂_mem_left f2b hr0
            have hb0tx : b0.txid = t'.id := by
              rw [(modRel_fields hrel0).1, (hnewprops r0 hr0).1]
            rw [List.map_append]
            exact List.mem_append_left _ (List.mem_map.mpr ⟨b0, hb0, hb0tx⟩)
          · rw [List.map_append]
            exact List.mem_append_right _ (hsurj₂ t' h2 houts)
        · have hp2 : p2.length = newRows.length := f2b.length_eq.symm
          rw [List.length_append, hp2, hlen_new, hlen₂]
          simp

theorem maxList_le_of_ne {l : List Int} {c : Int} (hne : l ≠ []) (hl : ∀ x ∈ l, x ≤ c) :
    maxList l ≤ c := by
  match l with
  | y :: t =>
    exact foldl_max_le (hl y (List.mem_cons_self y t))
      (fun x hx => hl x (List.mem_cons_of_mem _ hx))

theorem processBlock_ok_elim {b : Block} {s s' : Store} (h : processBlock b s = (none, s')) :
    b.height = getMaxBlockHeight s + 1 ∧ applyTxs b.height b.transactions s = (none, s') := by
  unfold processBlock at h
  split at h
  · cases h
  · rename_i u hveq
    split at h
    · cases h
    · split at h
      · cases h
      · cases u
        exact ⟨validateHeight_ok_iff.mp hveq, h⟩

theorem block_preserved {b : Block} {s s' : Store} (hk : keysNodup s)
    (h : processBlock b s = (none, s')) :
    keysNodup s' ∧ (cleanUnspent s → cleanUnspent s')
      ∧ (∀ x ∈ stamps s', x ∈ stamps s ∨ x ∈ blockTxIds b) := by
  obtain ⟨hh, happ⟩ := processBlock_ok_elim h
  obtain ⟨pre, rows, hs', f, hrows, hsurj, hlen, hk'⟩ := applyTxs_ok_struct hk happ
  subst hs'
  refine ⟨hk', ?_, ?_⟩
  · intro hclean u hu hsp
    rcases List.mem_append.mp hu with h2 | h2
    · obtain ⟨orig, horig, hrel⟩ := forall₂_mem_right f h2
      rcases hrel with hrel | ⟨_, t', _, he⟩
      · rw [hrel] at hsp ⊢
        exact hclean orig horig hsp
      · rw [he] at hsp
        simp [markUtxo] at hsp
    · exact (hrows u h2).2.2.2 hsp
  · intro x hx
    rw [stamps, List.mem_filterMap] at hx
    obtain ⟨u, hu, hsp⟩ := hx
    rcases List.mem_append.mp hu with h2 | h2
    · obtain ⟨orig, horig, hrel⟩ := forall₂_mem_right f h2
      rcases hrel with hrel | ⟨_, t', ht', he⟩
      · rw [hrel] at hsp
        exact Or.inl (List.mem_filterMap.mpr ⟨orig, horig, hsp⟩)
      · rw [he] at hsp
        simp only [markUtxo, Option.some.injEq] at hsp
        subst hsp
        exact Or.inr ht'
    · exact Or.inr ((hrows u h2).2.2.1 x hsp)

theorem block_tip {b : Block} {s s' : Store} (hk : keysNodup s)
    (h : processBlock b s = (none, s'))
    (hne : b.transactions ≠ []) (houts : ∀ t ∈ b.transactions, t.outputs ≠ []) :
    getMaxBlockHeight s' = getMaxBlockHeight s + 1 := by
  obtain ⟨hh, happ⟩ := processBlock_ok_elim h
  obtain ⟨pre, rows, hs', f, hrows, hsurj, hlen, hk'⟩ := applyTxs_ok_struct hk happ
  subst hs'
  have hrowsne : rows ≠ [] := by
    cases htx : b.transactions with
    | nil => exact absurd htx hne
    | cons t0 r0 =>
      have hm0 : t0 ∈ b.transactions := by rw [htx]; exact List.mem_cons_self t0 r0
      have h0 := hsurj t0 hm0 (houts t0 hm0)
      intro hc
      rw [hc] at h0
      cases h0
  have hpre_map : pre.map (fun u => u.blockHeight) = s.map (fun u => u.blockHeight) :=
    @forall₂_map_eq _ _ (fun u => u.blockHeight) (fun a b hr => (modRel_fields hr).2.2.1) _ _ f
  have hmap : (pre ++ rows).map (·.blockHeight)
      = s.map (·.blockHeight) ++ rows.map (·.blockHeight) := by
    rw [List.map_append, hpre_map]
  show maxList ((pre ++ rows).map (·.blockHeight)) = getMaxBlockHeight s + 1
  rw [hmap]
  apply le_antisymm
  · apply maxList_le_of_ne
    · simp [hrowsne]
    · intro x hx
      rcases List.mem_append.mp hx with h2 | h2
      · have hxle : x ≤ getMaxBlockHeight s := mem_le_maxList h2
        omega
      · rcases List.mem_map.mp h2 with ⟨u, hu, hueq⟩
        rw [← hueq, (hrows u hu).2.1, hh]
  · obtain ⟨r0, hr0⟩ := List.exists_mem_of_ne_nil rows hrowsne
    have hr0h : r0.blockHeight = getMaxBlockHeight s + 1 := by rw [(hrows r0 hr0).2.1, hh]
    exact mem_le_maxList
      (List.mem_append_right _ (List.mem_map.mpr ⟨r0, hr0, hr0h⟩))

theorem chain_preserved {bs : List Block} :
    ∀ {s s' : Store}, keysNodup s → ingestChain bs s = (none, s') →
      keysNodup s' ∧ (cleanUnspent s → cleanUnspent s')
        ∧ (∀ x ∈ stamps s', x ∈ stamps s ∨ x ∈ txIdsOf bs) := by
  induction bs with
  | nil =>
    intro s s' hk h
    cases h
    exact ⟨hk, fun hc => hc, fun x hx => Or.inl hx⟩
  | cons b rest ih =>
    intro s s' hk h
    unfold ingestChain at h
    split at h
    · cases h
    · rename_i s₁ hstep
      obtain ⟨hk₁, hcl₁, hst₁⟩ := block_preserved hk hstep
      obtain ⟨hk', hcl', hst'⟩ := ih hk₁ h
      refine ⟨hk', fun hc => hcl' (hcl₁ hc), ?_⟩
      intro x hx
      rcases hst' x hx with h2 | h2
      · rcases hst₁ x h2 with h3 | h3
        · exact Or.inl h3
        · exact Or.inr (List.mem_flatMap.mpr ⟨b, List.mem_cons_self b rest, h3⟩)
      · rw [txIdsOf, List.mem_flatMap] at h2
        obtain ⟨b', hb', hx'⟩ := h2
        exact Or.inr (List.mem_flatMap.mpr ⟨b', List.mem_cons_of_mem _ hb', hx'⟩)

theorem chain_tip {bs : List Block} :
    ∀ {s s' : Store}, keysNodup s → ingestChain bs s = (none, s') →
      (∀ b ∈ bs, b.transactions ≠ [] ∧ ∀ t ∈ b.transactions, t.outputs ≠ []) →
      getMaxBlockHeight s' = getMaxBlockHeight s + bs.length := by
  induction bs with
  | nil =>
    intro s s' hk h _
    cases h
    simp
  | cons b rest ih =>
    intro s s' hk h hprod
    unfold ingestChain at h
    split at h
    · cases h
    · rename_i s₁ hstep
      have hb := hprod b (List.mem_cons_self b rest)
      have ht₁ := block_tip hk hstep hb.1 hb.2
      have hk₁ := (block_preserved hk hstep).1
      have hrec := ih hk₁ h (fun b' hb' => hprod b' (List.mem_cons_of_mem _ hb'))
      rw [hrec, ht₁, List.length_cons]
      push_cast
      ring

theorem ingestChain_append {l₁ : List Block} :
    ∀ {l₂ : List Block} {s s' : Store}, ingestChain (l₁ ++ l₂) s = (none, s') →
      ∃ s₁, ingestChain l₁ s = (none, s₁) ∧ ingestChain l₂ s₁ = (none, s') := by
  induction l₁ with
  | nil => exact fun h => ⟨_, rfl, h⟩
  | cons b t ih =>
    intro l₂ s s' h
    rw [List.cons_append] at h
    unfold ingestChain at h
    split at h
    · cases h
    · rename_i s₁ hstep
      obtain ⟨sm, h1, h2⟩ := ih h
      refine ⟨sm, ?_, h2⟩
      unfold ingestChain
      rw [hstep]
      exact h1

/-- C2 counterexample: the short-id chain `blkA`, `blkB` is accepted, yet
the inserted rows carry the raw wire ids (`"a"`, `"b"`) and the spend mark
stamps the raw spender id `"b"` — none of them `pad64`-padded. -/
theorem store_writes_unpadded_counterexample :
    ingestChain [blkA, blkB] [] = (none, [uASpent, uB])
      ∧ uASpent.txid ≠ padTxId txA.id
      ∧ uASpent.spentTxid = some txB.id
      ∧ some txB.id ≠ some (padTxId txB.id)
      ∧ uB.txid ≠ padTxId txB.id := by
  refine ⟨by decide, by decide, by decide, by decide, by decide⟩

/-- C2 (amended): `pad64` is applied only on the hashing path
(`expectedBlockId` pads every transaction id before hashing); the store
writes of an accepted block use the wire ids unchanged — every row either
keeps a pre-existing `(txid, vout)` or has `txid` equal to some
transaction's raw id, and every new spend mark stamps some transaction's
raw id. -/
theorem padding_only_for_hashing (b : Block) (s s' : Store)
    (hkeys : keysNodup s) (h : processBlock b s = (none, s')) :
    (expectedBlockId b.height b.transactions =
      sha256hex (toString b.height ++ String.join (b.transactions.map (fun t => padTxId t.id)))) ∧
    (∀ u ∈ s', (∃ v ∈ s, v.txid = u.txid ∧ v.vout = u.vout)
      ∨ ∃ t ∈ b.transactions, u.txid = t.id) ∧
    (∀ u ∈ s', ∀ x, u.spentTxid = some x →
      (∃ v ∈ s, v.spentTxid = some x) ∨ ∃ t ∈ b.transactions, x = t.id) := by
  obtain ⟨hh, happ⟩ := processBlock_ok_elim h
  obtain ⟨pre, rows, hs', f, hrows, hsurj, hlen, hk'⟩ := applyTxs_ok_struct hkeys happ
  subst hs'
  refine ⟨rfl, ?_, ?_⟩
  · intro u hu
    rcases List.mem_append.mp hu with h2 | h2
    · obtain ⟨orig, horig, hrel⟩ := forall₂_mem_right f h2
      obtain ⟨htx, hvt, _, _, _⟩ := modRel_fields hrel
      exact Or.inl ⟨orig, horig, htx.symm, hvt.symm⟩
    · obtain ⟨t, ht, hteq⟩ := List.mem_map.mp (hrows u h2).1
      exact Or.inr ⟨t, ht, hteq.symm⟩
  · intro u hu x hx
    rcases List.mem_append.mp hu with h2 | h2
    · obtain ⟨orig, horig, hrel⟩ := forall₂_mem_right f h2
      rcases hrel with hrel | ⟨_, t', ht', he⟩
      · rw [hrel] at hx
        exact Or.inl ⟨orig, horig, hx⟩
      · rw [he] at hx
        simp only [markUtxo, Option.some.injEq] at hx
        subst hx
        obtain ⟨t, ht, hteq⟩ := List.mem_map.mp ht'
        exact Or.inr ⟨t, ht, hteq.symm⟩
    · obtain ⟨t, ht, hteq⟩ := List.mem_map.mp ((hrows u h2).2.2.1 x hx)
      exact Or.inr ⟨t, ht, hteq.symm⟩

theorem padding_only_for_hashing_witness :
    (keysNodup ([] : Store) ∧ processBlock blkA [] = (none, [uA]))
    ∧ (∀ u ∈ [uA], (∃ v ∈ ([] : Store), v.txid = u.txid ∧ v.vout = u.vout)
        ∨ ∃ t ∈ blkA.transactions, u.txid = t.id) := by
  refine ⟨⟨by simp [keysNodup], by decide⟩, ?_⟩
  exact (padding_only_for_hashing blkA [] [uA] (by simp [keysNodup]) (by decide)).2.1

/-- C8 counterexample: a block that names the same UTXO twice passes
validation, then `markAsSpent` fails on the second spend; the core
returns `UTXONotFound` (HTTP 404), not `DatabaseError` (500). -/
theorem utxonotfound_propagates_counterexample :
    (ingestChain [blkT, blkDup] []).1 = some .utxoNotFound
      ∧ statusCode .utxoNotFound = 404
      ∧ statusCode .databaseError = 500
      ∧ (AppError.utxoNotFound ≠ AppError.databaseError) := by
  refine ⟨by decide, by decide, by decide, by decide⟩

/-- C8 (amended): store *read* failures inside the height, conservation
and rollback-height validations are converted to that validation's own
error (status 400), not `DatabaseError`; the apply phase propagates store
errors verbatim, so a `UTXONotFound` from `markAsSpent` surfaces as
`UTXONotFound` with status 404; only thrown exceptions and actual store
faults carry status 500. -/
theorem store_failure_surfacing :
    (∀ h : Int, validateHeightR (.error ()) h = .error (.invalidBlockHeight none none)
      ∧ statusCode (.invalidBlockHeight none none) = 400) ∧
    (∀ txs : List Transaction, (txs.filter isRegularTx).isEmpty = false →
      validateRegularTransactionsR txs (.error ()) = .error .invalidInputOutputSum) ∧
    (∀ target : Int, 0 ≤ target →
      validateRollbackHeightR target (.error ()) =
        .error (.invalidRollbackHeight target none)
      ∧ statusCode (.invalidRollbackHeight target none) = 400) ∧
    (∀ (b : Block) (s : Store), b.height = getMaxBlockHeight s + 1 →
      validateInputOutputSum b s = .ok () →
      b.id = expectedBlockId b.height b.transactions →
      processBlock b s = applyTxs b.height b.transactions s) ∧
    statusCode .utxoNotFound = 404 ∧ statusCode .databaseError = 500 := by
  refine ⟨fun h => ⟨rfl, rfl⟩, ?_, ?_, fun b s h1 h2 h3 => processBlock_apply h1 h2 h3, rfl, rfl⟩
  · intro txs hne
    unfold validateRegularTransactionsR
    rw [if_neg (by rw [hne]; intro hc; cases hc)]
  · intro target h0
    refine ⟨?_, rfl⟩
    unfold validateRollbackHeightR
    rw [if_neg (by omega)]

theorem store_failure_surfacing_witness :
    (([txB].filter isRegularTx).isEmpty = false
      ∧ validateRegularTransactionsR [txB] (.error ()) = .error .invalidInputOutputSum)
    ∧ ((0 : Int) ≤ 0
      ∧ validateRollbackHeightR 0 (.error ()) = .error (.invalidRollbackHeight 0 none))
    ∧ validateHeightR (.error ()) 7 = .error (.invalidBlockHeight none none) := by
  refine ⟨⟨by decide, ?_⟩, ⟨by decide, ?_⟩, ?_⟩
  · exact store_failure_surfacing.2.1 [txB] (by decide)
  · exact (store_failure_surfacing.2.2.1 0 (by decide)).1
  · exact (store_failure_surfacing.1 7).1

/-! ## Rollback structure and the height-contiguity invariant -/

theorem tip_append_rows {s pre rows : Store} {H : Int}
    (hpre_map : pre.map (fun u => u.blockHeight) = s.map (fun u => u.blockHeight))
    (hrows_bh : ∀ u ∈ rows, u.blockHeight = H)
    (hne : rows ≠ []) (hgt : getMaxBlockHeight s < H) :
    getMaxBlockHeight (pre ++ rows) = H := by
  show maxList ((pre ++ rows).map (fun u => u.blockHeight)) = H
  rw [List.map_append, hpre_map]
  apply le_antisymm
  · apply maxList_le_of_ne (by simp [hne])
    intro x hx
    rcases List.mem_append.mp hx with h2 | h2
    · have h3 : x ≤ getMaxBlockHeight s := mem_le_maxList h2
      omega
    · obtain ⟨u, hu, hueq⟩ := List.mem_map.mp h2
      rw [← hueq, hrows_bh u hu]
  · obtain ⟨r0, hr0⟩ := List.exists_mem_of_ne_nil rows hne
    exact mem_le_maxList
      (List.mem_append_right _ (List.mem_map.mpr ⟨r0, hr0, hrows_bh r0 hr0⟩))

theorem validateRollbackHeight_ok_elim {t : Int} {s : Store}
    (h : validateRollbackHeight t s = .ok ()) : 0 ≤ t ∧ t ≤ getMaxBlockHeight s := by
  unfold validateRollbackHeight validateRollbackHeightR at h
  by_cases h1 : t < 0
  · rw [if_pos h1] at h
    cases h
  · rw [if_neg h1] at h
    have h' : (if t > getMaxBlockHeight s
        then (.error (.invalidRollbackHeight t (some (getMaxBlockHeight s))) : Except AppError Unit)
        else .ok ()) = .ok () := h
    by_cases h2 : t > getMaxBlockHeight s
    · rw [if_pos h2] at h'
      cases h'
    · exact ⟨by omega, by omega⟩

theorem rollback_ok_elim {t : Int} {s s' : Store} (h : rollbackToHeight t s = (none, s')) :
    0 ≤ t ∧ t ≤ getMaxBlockHeight s ∧ (∃ u ∈ s, t < u.blockHeight)
      ∧ s' = deleteUTXOsByBlockHeight t
          (if (setDedup ((findUTXOsByBlockHeight t s).map (·.txid))).isEmpty then s
           else unmarkAsSpent (setDedup ((findUTXOsByBlockHeight t s).map (·.txid))) s) := by
  unfold rollbackToHeight at h
  split at h
  · cases h
  · rename_i u hv
    cases u
    obtain ⟨h0, hle⟩ := validateRollbackHeight_ok_elim hv
    split at h
    · cases h
    · rename_i hne
      cases h
      refine ⟨h0, hle, ?_, rfl⟩
      have hvne : findUTXOsByBlockHeight t s ≠ [] := by
        intro hc
        rw [hc] at hne
        exact hne rfl
      obtain ⟨u, hu⟩ := List.exists_mem_of_ne_nil _ hvne
      unfold findUTXOsByBlockHeight at hu
      rw [List.mem_filter] at hu
      exact ⟨u, hu.1, by simpa using hu.2⟩

theorem unmark_mem_bh {ids : List String} {s : Store} {P : Int → Prop} :
    (∃ u ∈ unmarkAsSpent ids s, P u.blockHeight) ↔ (∃ u ∈ s, P u.blockHeight) := by
  unfold unmarkAsSpent
  split
  · exact Iff.rfl
  · constructor
    · rintro ⟨u, hu, hp⟩
      obtain ⟨v, hv, hveq⟩ := List.mem_map.mp hu
      refine ⟨v, hv, ?_⟩
      have hbh : u.blockHeight = v.blockHeight := by
        rw [← hveq]
        split
        · rfl
        · rfl
      rw [hbh] at hp
      exact hp
    · rintro ⟨u, hu, hp⟩
      refine ⟨_, List.mem_map_of_mem _ hu, ?_⟩
      show P (if _ then unmarkUtxo u else u).blockHeight
      split
      · exact hp
      · exact hp

theorem keysNodup_unmark {ids : List String} {s : Store} (hk : keysNodup s) :
    keysNodup (unmarkAsSpent ids s) := by
  unfold keysNodup unmarkAsSpent
  split
  · exact hk
  · rw [List.map_map]
    have hcongr : ∀ u ∈ s,
        (rowKey ∘ fun u => if u.spent && ids.any (fun t => u.spentTxid == some t)
          then unmarkUtxo u else u) u = rowKey u := by
      intro u _
      show rowKey (if (u.spent && ids.any fun t => u.spentTxid == some t) = true
        then unmarkUtxo u else u) = rowKey u
      split
      · rfl
      · rfl
    rw [List.map_congr_left hcongr]
    exact hk

theorem keysNodup_delete {t : Int} {s : Store} (hk : keysNodup s) :
    keysNodup (deleteUTXOsByBlockHeight t s) := by
  unfold keysNodup deleteUTXOsByBlockHeight
  exact List.Nodup.sublist ((List.filter_sublist s).map rowKey) hk

theorem reach_inv {s : Store} (hr : Reachable s) : keysNodup s ∧ heightsOk s := by
  induction hr with
  | empty =>
    refine ⟨by simp [keysNodup], ?_⟩
    intro h
    constructor
    · rintro ⟨u, hu, _⟩
      cases hu
    · rintro ⟨h1, h2⟩
      have h0 : getMaxBlockHeight ([] : Store) = 0 := rfl
      omega
  | stepBlock b s s' hrs hstep ih =>
    obtain ⟨hk, hok⟩ := ih
    refine ⟨(block_preserved hk hstep).1, ?_⟩
    obtain ⟨hh, happ⟩ := processBlock_ok_elim hstep
    obtain ⟨pre, rows, hs', f, hrows, hsurj, hlen, _⟩ := applyTxs_ok_struct hk happ
    subst hs'
    have hpre_map : pre.map (fun u => u.blockHeight) = s.map (fun u => u.blockHeight) :=
      @forall₂_map_eq _ _ (fun u => u.blockHeight) (fun a b hr => (modRel_fields hr).2.2.1) _ _ f
    have htip0 : 0 ≤ getMaxBlockHeight s := by
      by_cases hs : s = []
      · subst hs
        exact le_refl 0
      · obtain ⟨u0, hu0⟩ := List.exists_mem_of_ne_nil s hs
        have := (hok u0.blockHeight).mp ⟨u0, hu0, rfl⟩
        omega
    have hmemA : ∀ h : Int, (∃ u ∈ pre ++ rows, u.blockHeight = h) ↔
        ((∃ u ∈ s, u.blockHeight = h) ∨ (rows ≠ [] ∧ h = b.height)) := by
      intro h
      constructor
      · rintro ⟨u, hu, rfl⟩
        rcases List.mem_append.mp hu with h2 | h2
        · obtain ⟨orig, horig, hrel⟩ := forall₂_mem_right f h2
          exact Or.inl ⟨orig, horig, ((modRel_fields hrel).2.2.1).symm⟩
        · exact Or.inr ⟨(by intro hc; rw [hc] at h2; cases h2), (hrows u h2).2.1⟩
      · rintro (⟨u, hu, rfl⟩ | ⟨hne, rfl⟩)
        · obtain ⟨bm, hbm, hrel⟩ := forall₂_mem_left f hu
          exact ⟨bm, List.mem_append_left _ hbm, (modRel_fields hrel).2.2.1⟩
        · obtain ⟨r0, hr0⟩ := List.exists_mem_of_ne_nil rows hne
          exact ⟨r0, List.mem_append_right _ hr0, (hrows r0 hr0).2.1⟩
    by_cases hre : rows = []
    · subst hre
      have htip : getMaxBlockHeight (pre ++ []) = getMaxBlockHeight s := by
        show maxList ((pre ++ ([] : Store)).map (fun u : Utxo => u.blockHeight)) = getMaxBlockHeight s
        rw [List.append_nil, hpre_map]
        rfl
      intro h
      rw [htip]
      constructor
      · intro hex
        rcases (hmemA h).mp hex with h2 | ⟨hne, _⟩
        · exact (hok h).mp h2
        · exact absurd rfl hne
      · intro hb
        exact (hmemA h).mpr (Or.inl ((hok h).mpr hb))
    · have htip := tip_append_rows hpre_map (fun u hu => (hrows u hu).2.1) hre (by omega)
      intro h
      rw [htip]
      constructor
      · intro hex
        rcases (hmemA h).mp hex with h2 | ⟨_, rfl⟩
        · have := (hok h).mp h2
          omega
        · omega
      · rintro ⟨h1, h2⟩
        by_cases hcase : h ≤ getMaxBlockHeight s
        · exact (hmemA h).mpr (Or.inl ((hok h).mpr ⟨h1, hcase⟩))
        · exact (hmemA h).mpr (Or.inr ⟨hre, by omega⟩)
  | stepRollback t s s' hrs hstep ih =>
    obtain ⟨hk, hok⟩ := ih
    obtain ⟨h0, hle, hvict, hs'⟩ := rollback_ok_elim hstep
    have hk1 : keysNodup (if (setDedup ((findUTXOsByBlockHeight t s).map (·.txid))).isEmpty
        then s else unmarkAsSpent (setDedup ((findUTXOsByBlockHeight t s).map (·.txid))) s) := by
      split
      · exact hk
      · exact keysNodup_unmark hk
    have hmem1 : ∀ P : Int → Prop,
        (∃ u ∈ (if (setDedup ((findUTXOsByBlockHeight t s).map (·.txid))).isEmpty
          then s else unmarkAsSpent (setDedup ((findUTXOsByBlockHeight t s).map (·.txid))) s),
          P u.blockHeight) ↔ ∃ u ∈ s, P u.blockHeight := by
      intro P
      split
      · exact Iff.rfl
      · exact unmark_mem_bh
    rw [hs']
    refine ⟨keysNodup_delete hk1, ?_⟩
    obtain ⟨uv, huv, huvbh⟩ := hvict
    have htlt : t < getMaxBlockHeight s := lt_of_lt_of_le huvbh (mem_height_le_tip huv)
    by_cases ht1 : 1 ≤ t
    · obtain ⟨um, humem, humbh⟩ := (hmem1 (· = t)).mpr ((hok t).mpr ⟨ht1, by omega⟩)
      have humdel : um ∈ deleteUTXOsByBlockHeight t _ :=
        List.mem_filter.mpr ⟨humem, by simp [humbh]⟩
      have htips' : getMaxBlockHeight (deleteUTXOsByBlockHeight t
          (if (setDedup ((findUTXOsByBlockHeight t s).map (·.txid))).isEmpty
           then s else unmarkAsSpent (setDedup ((findUTXOsByBlockHeight t s).map (·.txid))) s)) = t := by
        apply le_antisymm
        · apply maxList_le_of_ne
            (by rw [Ne, List.map_eq_nil]; exact List.ne_nil_of_mem humdel)
          intro x hx
          obtain ⟨u, hu, hueq⟩ := List.mem_map.mp hx
          unfold deleteUTXOsByBlockHeight at hu
          rw [List.mem_filter] at hu
          have := hu.2
          simp at this
          omega
        · exact mem_le_maxList (List.mem_map.mpr ⟨um, humdel, humbh⟩)
      intro h
      rw [htips']
      constructor
      · rintro ⟨u, hu, rfl⟩
        unfold deleteUTXOsByBlockHeight at hu
        rw [List.mem_filter] at hu
        have hcond := hu.2
        simp at hcond
        have hpres : ∃ v ∈ s, v.blockHeight = u.blockHeight :=
          (hmem1 (· = u.blockHeight)).mp ⟨u, hu.1, rfl⟩
        have := (hok u.blockHeight).mp hpres
        exact ⟨this.1, by omega⟩
      · rintro ⟨h1, h2⟩
        obtain ⟨w, hw, hwbh⟩ := (hmem1 (· = h)).mpr ((hok h).mpr ⟨h1, by omega⟩)
        exact ⟨w, List.mem_filter.mpr ⟨hw, by simp [hwbh]; omega⟩, hwbh⟩
    · have ht0 : t = 0 := by omega
      have hempty : deleteUTXOsByBlockHeight t
          (if (setDedup ((findUTXOsByBlockHeight t s).map (·.txid))).isEmpty
           then s else unmarkAsSpent (setDedup ((findUTXOsByBlockHeight t s).map (·.txid))) s) = [] := by
        rw [List.eq_nil_iff_forall_not_mem]
        intro u hu
        unfold deleteUTXOsByBlockHeight at hu
        rw [List.mem_filter] at hu
        have hcond := hu.2
        simp at hcond
        have hpres : ∃ v ∈ s, v.blockHeight = u.blockHeight :=
          (hmem1 (· = u.blockHeight)).mp ⟨u, hu.1, rfl⟩
        have := (hok u.blockHeight).mp hpres
        omega
      rw [hempty]
      intro h
      constructor
      · rintro ⟨u, hu, _⟩
        cases hu
      · rintro ⟨h1, h2⟩
        have hz : getMaxBlockHeight ([] : Store) = 0 := rfl
        omega

/-- C9: after any sequence of successful ingests and rollbacks from the
empty store, the heights present are exactly `{1 .. tip()}` (empty with
tip 0 when no rows exist). -/
theorem height_contiguity (s : Store) (hr : Reachable s) : heightsOk s :=
  (reach_inv hr).2

theorem height_contiguity_witness : heightsOk [uA] :=
  height_contiguity [uA] (Reachable.stepBlock blkA [] [uA] Reachable.empty (by decide))

/-! ## Rollback inverts ingest -/

theorem mem_dedupAux {x : String} :
    ∀ (l seen : List String), x ∈ dedupAux seen l ↔ (x ∈ l ∧ x ∉ seen) := by
  intro l
  induction l with
  | nil =>
    intro seen
    simp [dedupAux]
  | cons y ys ih =>
    intro seen
    unfold dedupAux
    by_cases hy : seen.contains y = true
    · rw [if_pos hy, ih seen]
      have hymem : y ∈ seen := by simpa using hy
      constructor
      · rintro ⟨h1, h2⟩
        exact ⟨List.mem_cons_of_mem _ h1, h2⟩
      · rintro ⟨h1, h2⟩
        rcases List.mem_cons.mp h1 with h3 | h3
        · subst h3
          exact absurd hymem h2
        · exact ⟨h3, h2⟩
    · rw [if_neg hy]
      have hymem : y ∉ seen := by simpa using hy
      constructor
      · intro h
        rcases List.mem_cons.mp h with h3 | h3
        · subst h3
          exact ⟨List.mem_cons_self .., hymem⟩
        · rw [ih (y :: seen)] at h3
          exact ⟨List.mem_cons_of_mem _ h3.1, fun hc => h3.2 (List.mem_cons_of_mem _ hc)⟩
      · rintro ⟨h1, h2⟩
        by_cases hxy : x = y
        · subst hxy
          exact List.mem_cons_self ..
        · rcases List.mem_cons.mp h1 with h3 | h3
          · exact absurd h3 hxy
          · refine List.mem_cons_of_mem _ ((ih (y :: seen)).mpr ⟨h3, fun hc => ?_⟩)
            rcases List.mem_cons.mp hc with h4 | h4
            · exact hxy h4
            · exact h2 h4

theorem mem_setDedup {x : String} {l : List String} : x ∈ setDedup l ↔ x ∈ l := by
  unfold setDedup
  rw [mem_dedupAux l []]
  simp

theorem setDedup_isEmpty_false {l : List String} (hne : l ≠ []) :
    (setDedup l).isEmpty = false := by
  obtain ⟨a, ha⟩ := List.exists_mem_of_ne_nil l hne
  have hmem : a ∈ setDedup l := mem_setDedup.mpr ha
  cases hb : (setDedup l).isEmpty with
  | false => rfl
  | true =>
    rw [List.isEmpty_iff] at hb
    rw [hb] at hmem
    cases hmem

theorem unmark_mark_cancel {a : Utxo} {x : String}
    (hsp : a.spent = false) (hst : a.spentTxid = none) :
    unmarkUtxo (markUtxo a x) = a := by
  cases a
  simp_all [unmarkUtxo, markUtxo]

theorem forall₂_unmark_back {tailIds ids : List String}
    (hids : ∀ x, x ∈ ids ↔ x ∈ tailIds) :
    ∀ {l l' : Store}, List.Forall₂ (modRel tailIds) l l' →
      (∀ u ∈ l, u.spent = false → u.spentTxid = none) →
      (∀ u ∈ l, ∀ x, u.spentTxid = some x → x ∉ ids) →
      l'.map (fun u => if u.spent && ids.any (fun t => u.spentTxid == some t)
        then unmarkUtxo u else u) = l := by
  intro l l' f
  induction f with
  | nil =>
    intro _ _
    rfl
  | cons hab frest ih =>
    rename_i a b l₁ l₂
    intro hclean hst
    have hrest := ih (fun u hu hsp => hclean u (List.mem_cons_of_mem _ hu) hsp)
      (fun u hu => hst u (List.mem_cons_of_mem _ hu))
    simp only [List.map_cons]
    rw [hrest]
    have hgb : (if b.spent && ids.any (fun t => b.spentTxid == some t)
        then unmarkUtxo b else b) = a := by
      rcases hab with hab | ⟨has, t', ht', he⟩
      · rw [hab]
        apply if_neg
        intro hcond
        rw [Bool.and_eq_true] at hcond
        obtain ⟨hsp', hany⟩ := hcond
        rw [List.any_eq_true] at hany
        obtain ⟨t', ht', hbeq⟩ := hany
        have hsome : a.spentTxid = some t' := by simpa using hbeq
        exact hst a (List.mem_cons_self ..) t' hsome ht'
      · subst he
        have hcond : ((markUtxo a t').spent
            && ids.any (fun t => (markUtxo a t').spentTxid == some t)) = true := by
          rw [Bool.and_eq_true]
          constructor
          · rfl
          · rw [List.any_eq_true]
            refine ⟨t', (hids t').mpr ht', ?_⟩
            exact beq_self_eq_true (some t')
        rw [if_pos hcond]
        exact unmark_mark_cancel has (hclean a (List.mem_cons_self ..) has)
    rw [hgb]

/-- The rollback invariant survives one accepted productive block whose
transaction ids do not occur as spend marks of the target state. -/
theorem rollInv_step {sK : Store} {K : Int} {b : Block} {s s' : Store}
    (hinv : rollInv sK K s) (hstep : processBlock b s = (none, s'))
    (hne : b.transactions ≠ [])
    (houts : ∀ t ∈ b.transactions, t.outputs ≠ [])
    (hfresh : ∀ t ∈ b.transactions, t.id ∉ stamps sK) :
    rollInv sK K s' := by
  obtain ⟨old, tail, hseq, fOld, htail_h, htail_st, hk, htipK⟩ := hinv
  subst hseq
  have htip' := block_tip hk hstep hne houts
  obtain ⟨hh, happ⟩ := processBlock_ok_elim hstep
  obtain ⟨pre, rows, hs', f, hrows, hsurj, hlen, hk'⟩ := applyTxs_ok_struct hk happ
  obtain ⟨o₁, t₁, hpre, fo, ft⟩ := forall₂_append_split f
  subst hpre
  have htid : t₁.map (fun u : Utxo => u.txid) = tail.map (fun u : Utxo => u.txid) :=
    @forall₂_map_eq _ _ (fun u => u.txid) (fun a b hr => (modRel_fields hr).1) _ _ ft
  refine ⟨o₁, t₁ ++ rows, by rw [hs', List.append_assoc], ?_, ?_, ?_, hk', ?_⟩
  · have hcomp := forall₂_trans_modRel fOld fo
    refine hcomp.imp ?_
    intro a c hr
    refine modRel_mono ?_ hr
    intro x hx
    rw [List.map_append]
    rcases List.mem_append.mp hx with h2 | h2
    · refine List.mem_append_left _ ?_
      rw [htid]
      exact h2
    · obtain ⟨t, ht, hteq⟩ := List.mem_map.mp h2
      refine List.mem_append_right _ ?_
      rw [← hteq]
      exact hsurj t ht (houts t ht)
  · intro u hu
    rcases List.mem_append.mp hu with h2 | h2
    · obtain ⟨orig, horig, hrel⟩ := forall₂_mem_right ft h2
      rw [(modRel_fields hrel).2.2.1]
      exact htail_h orig horig
    · rw [(hrows u h2).2.1, hh]
      omega
  · intro x hx
    rw [List.map_append] at hx
    rcases List.mem_append.mp hx with h2 | h2
    · rw [htid] at h2
      exact htail_st x h2
    · obtain ⟨u, hu, hueq⟩ := List.mem_map.mp h2
      obtain ⟨t, ht, hteq⟩ := List.mem_map.mp (hrows u hu).1
      intro hc
      apply hfresh t ht
      rw [hteq, hueq]
      exact hc
  · rw [htip']
    omega

/-- The rollback invariant survives a whole chain of such blocks. -/
theorem rollInv_chain {sK : Store} {K : Int} {bs : List Block} :
    ∀ {s s' : Store}, rollInv sK K s → ingestChain bs s = (none, s') →
      (∀ b ∈ bs, b.transactions ≠ [] ∧ ∀ t ∈ b.transactions, t.outputs ≠ []) →
      (∀ b ∈ bs, ∀ t ∈ b.transactions, t.id ∉ stamps sK) →
      rollInv sK K s' := by
  induction bs with
  | nil =>
    intro s s' hinv h _ _
    cases h
    exact hinv
  | cons b rest ih =>
    intro s s' hinv h hprod hfresh
    unfold ingestChain at h
    split at h
    · cases h
    · rename_i s₁ hstep
      have hb := hprod b (List.mem_cons_self b rest)
      have hinv₁ := rollInv_step hinv hstep hb.1 hb.2 (hfresh b (List.mem_cons_self b rest))
      exact ih hinv₁ h (fun b' hb' => hprod b' (List.mem_cons_of_mem _ hb'))
        (fun b' hb' => hfresh b' (List.mem_cons_of_mem _ hb'))

/-- A store satisfying the rollback invariant rolls back exactly to `sK`:
the deduplicated producer ids of the rows above `K` unmark precisely the
marks those rows' transactions left on `sK`, and the delete removes
precisely those rows. -/
theorem rollback_exact {sK : Store} {K : Int} {s : Store}
    (hinv : rollInv sK K s) (hclean : cleanUnspent sK) (h0 : 0 ≤ K)
    (hKtip : ∀ u ∈ sK, u.blockHeight ≤ K) (hgt : K < getMaxBlockHeight s) :
    rollbackToHeight K s = (none, sK) := by
  obtain ⟨old, tail, hseq, fOld, htail_h, htail_st, hk, htipK⟩ := hinv
  subst hseq
  have hold_bh : ∀ u ∈ old, u.blockHeight ≤ K := by
    intro u hu
    obtain ⟨orig, horig, hrel⟩ := forall₂_mem_right fOld hu
    rw [(modRel_fields hrel).2.2.1]
    exact hKtip orig horig
  have htail_ne : tail ≠ [] := by
    intro hc
    subst hc
    have hle : getMaxBlockHeight (old ++ ([] : Store)) ≤ K := by
      show maxList ((old ++ ([] : Store)).map (fun u : Utxo => u.blockHeight)) ≤ K
      rw [List.append_nil]
      apply maxList_le h0
      intro x hx
      obtain ⟨u, hu, hueq⟩ := List.mem_map.mp hx
      rw [← hueq]
      exact hold_bh u hu
    omega
  have hvict : findUTXOsByBlockHeight K (old ++ tail) = tail := by
    unfold findUTXOsByBlockHeight
    have hA : old.filter (fun u => decide (K < u.blockHeight)) = [] := by
      rw [List.filter_eq_nil_iff]
      intro u hu
      simpa using not_lt.mpr (hold_bh u hu)
    have hB : tail.filter (fun u => decide (K < u.blockHeight)) = tail := by
      rw [List.filter_eq_self]
      intro u hu
      simpa using htail_h u hu
    rw [List.filter_append, hA, hB]
    exact List.nil_append tail
  have htail_ne' : ¬(tail.isEmpty = true) := by
    rw [List.isEmpty_iff]
    exact htail_ne
  have hmapne : tail.map (fun u : Utxo => u.txid) ≠ [] := by
    rw [Ne, List.map_eq_nil]
    exact htail_ne
  have hids_ne : ¬((setDedup (tail.map (fun u : Utxo => u.txid))).isEmpty = true) := by
    rw [setDedup_isEmpty_false hmapne]
    simp
  have hval : validateRollbackHeight K (old ++ tail) = .ok () :=
    validateRollbackHeight_ok h0 (le_of_lt hgt)
  have hst : ∀ u ∈ sK, ∀ x, u.spentTxid = some x
      → x ∉ setDedup (tail.map (fun u : Utxo => u.txid)) := by
    intro u hu x hx hc
    exact htail_st x (mem_setDedup.mp hc) (List.mem_filterMap.mpr ⟨u, hu, hx⟩)
  have hold_map := @forall₂_unmark_back (tail.map (fun u : Utxo => u.txid))
    (setDedup (tail.map (fun u : Utxo => u.txid))) (fun x => mem_setDedup)
    sK old fOld hclean hst
  have hstate : deleteUTXOsByBlockHeight K
      (unmarkAsSpent (setDedup (tail.map (fun u : Utxo => u.txid))) (old ++ tail)) = sK := by
    unfold unmarkAsSpent
    rw [if_neg hids_ne]
    rw [List.map_append, hold_map]
    unfold deleteUTXOsByBlockHeight
    have hkeep : sK.filter (fun u => !decide (K < u.blockHeight)) = sK := by
      rw [List.filter_eq_self]
      intro u hu
      simpa using not_lt.mpr (hKtip u hu)
    have hdrop2 : (tail.map (fun u => if u.spent
        && (setDedup (tail.map (fun u : Utxo => u.txid))).any (fun t => u.spentTxid == some t)
        then unmarkUtxo u else u)).filter (fun u => !decide (K < u.blockHeight)) = [] := by
      rw [List.filter_eq_nil_iff]
      intro u hu
      obtain ⟨v, hv, hveq⟩ := List.mem_map.mp hu
      have hbh : u.blockHeight = v.blockHeight := by
        rw [← hveq]
        by_cases hc : (v.spent && (setDedup (tail.map (fun u : Utxo => u.txid))).any
            (fun t => v.spentTxid == some t)) = true
        · rw [if_pos hc]
          rfl
        · rw [if_neg hc]
      simpa [hbh] using htail_h v hv
    rw [List.filter_append, hkeep, hdrop2]
    exact List.append_nil sK
  unfold rollbackToHeight
  rw [hval, hvict, if_neg htail_ne', if_neg hids_ne, hstate]

/-- C1 counterexample: the literal claim fails when a block advances no
height. The empty block `bEmpty` and the productive block `blkA` are both
accepted at height 1; rolling back to 1 then removes nothing (the tip is
already 1), while ingesting only the first block gives the empty store. -/
theorem rollback_count_counterexample :
    ingestChain [bEmpty, blkA] [] = (none, [uA])
      ∧ (1 : Nat) ≤ ([bEmpty, blkA] : List Block).length
      ∧ (rollbackToHeight ((1 : Nat) : Int) [uA]).2
          ≠ (ingestChain ([bEmpty, blkA].take 1) []).2 := by
  refine ⟨by decide, by decide, by decide⟩

/-- C1 (amended): rollback inverts ingest for chains whose blocks each
carry at least one transaction, whose transactions each create at least
one output (so every accepted block advances the tip by exactly one and
block index equals height), and whose transaction ids are globally
distinct (so rollback's spent-txid matching cannot strip marks left by
retained blocks): after ingesting `bs` from the empty store, rolling back
to `k ≤ |bs|` leaves exactly the state of ingesting the first `k` blocks,
and for `k < |bs|` the rollback itself succeeds. -/
theorem rollback_inverts_ingest (bs : List Block) (k : Nat) (sN : Store)
    (hacc : ingestChain bs [] = (none, sN))
    (hprod : ∀ b ∈ bs, b.transactions ≠ [] ∧ ∀ t ∈ b.transactions, t.outputs ≠ [])
    (hids : (bs.flatMap blockTxIds).Nodup)
    (hk : k ≤ bs.length) :
    (rollbackToHeight (k : Int) sN).2 = (ingestChain (bs.take k) []).2
      ∧ (k < bs.length →
          rollbackToHeight (k : Int) sN = (none, (ingestChain (bs.take k) []).2)) := by
  have hsplit : bs.take k ++ bs.drop k = bs := List.take_append_drop k bs
  obtain ⟨sK, h1, h2⟩ := @ingestChain_append (bs.take k) (bs.drop k) [] sN
    (by rw [hsplit]; exact hacc)
  have hkeys0 : keysNodup ([] : Store) := by simp [keysNodup]
  have hclean0 : cleanUnspent ([] : Store) := by
    intro u hu
    cases hu
  obtain ⟨hkK, hclK, hstK⟩ := chain_preserved hkeys0 h1
  have hcleanK : cleanUnspent sK := hclK hclean0
  have hprod₁ : ∀ b ∈ bs.take k, b.transactions ≠ [] ∧ ∀ t ∈ b.transactions, t.outputs ≠ [] :=
    fun b hb => hprod b (List.mem_of_mem_take hb)
  have hprod₂ : ∀ b ∈ bs.drop k, b.transactions ≠ [] ∧ ∀ t ∈ b.transactions, t.outputs ≠ [] :=
    fun b hb => hprod b (List.mem_of_mem_drop hb)
  have htipK : getMaxBlockHeight sK = (k : Int) := by
    have ht := chain_tip hkeys0 h1 hprod₁
    rw [ht]
    have h0' : getMaxBlockHeight ([] : Store) = 0 := rfl
    rw [h0', List.length_take]
    have hmin : min k bs.length = k := min_eq_left hk
    rw [hmin]
    omega
  have hstampsK : ∀ x ∈ stamps sK, x ∈ txIdsOf (bs.take k) := by
    intro x hx
    rcases hstK x hx with h3 | h3
    · simp [stamps] at h3
    · exact h3
  have hKtipRows : ∀ u ∈ sK, u.blockHeight ≤ (k : Int) := by
    intro u hu
    have := mem_height_le_tip hu
    omega
  by_cases hcase : k < bs.length
  · have hdisj : List.Disjoint (txIdsOf (bs.take k)) (txIdsOf (bs.drop k)) := by
      have hnd : (txIdsOf (bs.take k) ++ txIdsOf (bs.drop k)).Nodup := by
        rw [txIdsOf, txIdsOf, ← List.flatMap_append (bs.take k) (bs.drop k) blockTxIds, hsplit]
        exact hids
      exact List.disjoint_of_nodup_append hnd
    have hfreshAll : ∀ b ∈ bs.drop k, ∀ t ∈ b.transactions, t.id ∉ stamps sK := by
      intro b hb t ht hmem
      have hx1 : t.id ∈ txIdsOf (bs.take k) := hstampsK _ hmem
      have hx2 : t.id ∈ txIdsOf (bs.drop k) :=
        List.mem_flatMap.mpr ⟨b, hb, List.mem_map.mpr ⟨t, ht, rfl⟩⟩
      exact hdisj hx1 hx2
    have hinv0 : rollInv sK (k : Int) sK := by
      refine ⟨sK, [], by simp, ?_, by simp, by simp, hkK, le_of_eq htipK.symm⟩
      exact forall₂_self_of (modRel_refl _) sK
    have hinvN : rollInv sK (k : Int) sN := rollInv_chain hinv0 h2 hprod₂ hfreshAll
    have htipN : (k : Int) < getMaxBlockHeight sN := by
      have ht := chain_tip hkK h2 hprod₂
      rw [ht, htipK]
      have hlen : (bs.drop k).length = bs.length - k := List.length_drop k bs
      omega
    have hroll := rollback_exact hinvN hcleanK (Int.natCast_nonneg k) hKtipRows htipN
    rw [h1, hroll]
    exact ⟨rfl, fun _ => rfl⟩
  · have hdrop : bs.drop k = [] := List.drop_eq_nil_of_le (by omega)
    rw [hdrop] at h2
    have hsn : sN = sK := by
      have h2' : ((none, sK) : Option AppError × Store) = (none, sN) := h2
      exact (Prod.ext_iff.mp h2').2.symm
    have hnb : rollbackToHeight (k : Int) sK =
        (some (.noBlocksToRollback (k : Int) (getMaxBlockHeight sK)), sK) := by
      unfold rollbackToHeight
      rw [validateRollbackHeight_ok (Int.natCast_nonneg k) (le_of_eq htipK.symm)]
      have hempty : findUTXOsByBlockHeight (k : Int) sK = [] := by
        unfold findUTXOsByBlockHeight
        rw [List.filter_eq_nil_iff]
        intro u hu
        simpa using not_lt.mpr (hKtipRows u hu)
      rw [hempty]
      rfl
    rw [h1, hsn, hnb]
    exact ⟨rfl, fun hc => absurd hc hcase⟩

theorem rollback_inverts_ingest_witness :
    (ingestChain [wb1, wb2] [] = (none, [wu1, wu2])
      ∧ (∀ b ∈ ([wb1, wb2] : List Block),
          b.transactions ≠ [] ∧ ∀ t ∈ b.transactions, t.outputs ≠ [])
      ∧ (([wb1, wb2] : List Block).flatMap blockTxIds).Nodup
      ∧ (1 : Nat) ≤ ([wb1, wb2] : List Block).length)
    ∧ (rollbackToHeight ((1 : Nat) : Int) [wu1, wu2]).2
        = (ingestChain (([wb1, wb2] : List Block).take 1) []).2 := by
  refine ⟨⟨by decide, by decide, by decide, by decide⟩, ?_⟩
  exact (rollback_inverts_ingest [wb1, wb2] 1 [wu1, wu2] (by decide) (by decide)
    (by decide) (by decide)).1


end UtxoIndexer
